import Mathlib

/-!
# Amass enumeration pipeline: input source, request broker, duplicate tracker

A shallow embedding of `enum/input.go` and `enum/enum.go`.

* Queues (`queue.Queue`) are lists, oldest element first.
* The stable Bloom filters `filter` and `sweepFilter` are exact sets of byte
  strings, kept as lists of the keys added so far.
* The `release` channel is the number of tokens it holds; its capacity is `max`.
* Functions of other packages (`requests.TrustedTag`, `Valid`,
  `requests.SanitizeDNSRequest`, the subdomain regular expression,
  `amassnet.IsReservedAddress`) are fields of `Env`; the addresses given by
  `amassnet.CIDRSubset` are part of each `SweepCall`.
* The broker loop and the input source are transition systems over their
  loop variables, with counters added where a property speaks of deliveries
  or of the origin of queued requests.
-/

namespace Amass

/-! ## Data model -/

/-- One resource record of a `requests.DNSRequest`. -/
structure DNSAnswer where
  Name : String
  RRType : Int
  TTL : Int
  Data : String
  deriving DecidableEq, Repr

/-- The `requests.DNSRequest` fields read by the enumeration. -/
structure DNSRequest where
  Name : String
  Domain : String
  Records : List DNSAnswer
  Tag : String
  Source : String
  deriving DecidableEq, Repr

/-- The `requests.AddrRequest` fields read by the enumeration. -/
structure AddrRequest where
  Address : String
  InScope : Bool
  Domain : String
  Tag : String
  Source : String
  deriving DecidableEq, Repr

/-- Elements of the input source's `queue`: the two request kinds it appends. -/
inductive Data where
  | dns (req : DNSRequest)
  | addr (req : AddrRequest)
  deriving DecidableEq, Repr

/-- Functions of other packages that the input source calls. -/
structure Env where
  /-- Models `requests.TrustedTag`. -/
  TrustedTag : String → Bool
  /-- Models `(*requests.DNSRequest).Valid`. -/
  ValidDNS : DNSRequest → Bool
  /-- Models `(*requests.AddrRequest).Valid`. -/
  ValidAddr : AddrRequest → Bool
  /-- Models `requests.SanitizeDNSRequest` (the request after the in-place clean-up). -/
  SanitizeDNSRequest : DNSRequest → DNSRequest
  /-- Models `r.subre.FindString`. -/
  FindString : String → String
  /-- Models the first result of `amassnet.IsReservedAddress`. -/
  IsReservedAddress : String → Bool

/-- The state of `enumSource` that the modelled methods read and write. -/
structure enumSource where
  queue : List Data
  dups : List DNSRequest
  sweeps : List AddrRequest
  filter : List String
  sweepFilter : List String
  /-- Number of tokens held by the `release` channel (capacity `max`). -/
  release : Nat
  max : Nat
  count : Nat
  done : Bool
  deriving DecidableEq, Repr

/-- The clamp of `newEnumSource`: `qps` is raised to 1000 when below it. -/
def clampQPS (qps : Int) : Int :=
  if qps < 1000 then 1000 else qps

/-- The state built by `newEnumSource`: empty queues and filters, `release`
filled with `qps` tokens after the clamp. -/
def newEnumSource (qps : Int) : enumSource :=
  { queue := [], dups := [], sweeps := [], filter := [], sweepFilter := []
    release := (clampQPS qps).toNat, max := (clampQPS qps).toNat, count := 0, done := false }

/-- Go's `strconv.FormatBool`. -/
def FormatBool (b : Bool) : String :=
  if b then "true" else "false"

/-- The request appended to `dups` by `accept`: only name, tag and source are set. -/
def dupRequest (s tag source : String) : DNSRequest :=
  { Name := s, Domain := "", Records := [], Tag := tag, Source := source }

/-- Models `enumSource.accept`: the result and the state after the call. -/
def accept (env : Env) (r : enumSource) (s tag source : String) (name : Bool) :
    Bool × enumSource :=
  let trusted := env.TrustedTag tag
  if !trusted && decide (s ++ FormatBool true ∈ r.filter) then
    (false, if name then { r with dups := r.dups ++ [dupRequest s tag source] } else r)
  else if decide (s ++ FormatBool trusted ∈ r.filter) then
    (false, if name then { r with dups := r.dups ++ [dupRequest s tag source] } else r)
  else
    (true, { r with filter := r.filter ++ [s ++ FormatBool trusted] })

/-- One call of `accept` in a sequence: subject, tag, source and the name flag. -/
structure AcceptCall where
  s : String
  tag : String
  source : String
  name : Bool
  deriving DecidableEq, Repr

/-- Runs a sequence of `accept` calls, collecting each call's result. -/
def acceptAll (env : Env) : enumSource → List AcceptCall → List Bool × enumSource
  | r, [] => ([], r)
  | r, c :: cs =>
    let r1 := accept env r c.s c.tag c.source c.name
    let rest := acceptAll env r1.2 cs
    (r1.1 :: rest.1, rest.2)

/-- The fingerprints `(subject, trusted-bit)` of the calls of a sequence that
returned true, in call order. -/
def acceptedPrints (env : Env) (r : enumSource) (cs : List AcceptCall) :
    List (String × Bool) :=
  ((cs.zip (acceptAll env r cs).1).filter (fun p => p.2)).map
    (fun p => (p.1.s, env.TrustedTag p.1.tag))

/-- The order in which two accepted sightings of one subject can come: the
earlier one untrusted, the later one trusted. -/
def UntrustedFirst (p q : String × Bool) : Prop :=
  p.1 = q.1 → p.2 = false ∧ q.2 = true

/-! ## Submitting names and addresses -/

/-- Go's `strings.Split(name, ".")` on the characters of the name: the labels
between the dots, one empty label for the empty name. -/
def splitDot : List Char → List (List Char)
  | [] => [[]]
  | c :: cs =>
    if c = '.' then [] :: splitDot cs
    else
      match splitDot cs with
      | [] => [[c]]
      | l :: ls => (c :: l) :: ls

/-- Go's `strings.ToLower` on ASCII letters, other characters kept. The letters
of `_tcp`, `_udp` and `_tls` are the lower case of their ASCII capitals only, so
the comparisons of `newName` come out as in Go. -/
def ToLower (label : List Char) : String :=
  String.mk (label.map Char.toLower)

/-- The loop of `newName` over the labels of the name: true when it returns
early because a label is `_tcp`, `_udp` or `_tls` in lower case. -/
def serviceLabel (name : String) : Bool :=
  (splitDot name.data).any fun label =>
    let l := ToLower label
    l == "_tcp" || l == "_udp" || l == "_tls"

/-- Models `enumSource.newName`. -/
def newName (env : Env) (r : enumSource) (req : DNSRequest) : enumSource :=
  if r.done then r
  else if !env.ValidDNS req then r
  else
    let req := env.SanitizeDNSRequest req
    if env.FindString req.Name != req.Name then r
    else if serviceLabel req.Name then r
    else
      let res := accept env r req.Name req.Tag req.Source true
      if res.1 then { res.2 with queue := res.2.queue ++ [Data.dns req] } else res.2

/-- Models `enumSource.newAddr`. -/
def newAddr (env : Env) (r : enumSource) (req : AddrRequest) : enumSource :=
  if r.done then r
  else if !env.ValidAddr req || !req.InScope then r
  else
    let res := accept env r req.Address req.Tag req.Source false
    if !res.1 then res.2
    else
      let r1 := { res.2 with queue := res.2.queue ++ [Data.addr req] }
      if !env.IsReservedAddress req.Address then { r1 with sweeps := r1.sweeps ++ [req] }
      else r1

/-! ## Request broker -/

/-- The loop state of `manageDataSrcRequests`, with the bookkeeping needed to
speak about its deliveries: `inflight` counts the `fireRequest` calls started
for a source whose `finished` signal the loop has not yet received, `started`
lists the requests handed to `fireRequest` for a source, `taken` lists the
requests taken from `e.requests`. -/
structure Broker (α : Type) where
  pending : String → Bool
  requestsMap : String → List α
  inflight : String → Nat
  started : String → List α
  taken : List α

/-- The state before the loop: nothing pending, no backlog, nothing started. -/
def Broker.init (α : Type) : Broker α :=
  { pending := fun _ => false, requestsMap := fun _ => [], inflight := fun _ => 0
    started := fun _ => [], taken := [] }

/-- The keys of `nameToSrc`: the names of `e.srcs`, each once. -/
def nameToSrcKeys (srcs : List String) : List String :=
  srcs.dedup

/-- The statement `go e.fireRequest(nameToSrc[name], req, finished)`. -/
def fireRequest {α : Type} (b : Broker α) (name : String) (req : α) : Broker α :=
  { b with
    inflight := Function.update b.inflight name (b.inflight name + 1)
    started := Function.update b.started name (b.started name ++ [req]) }

/-- The body of the loop over `nameToSrc` for one new request. -/
def offer {α : Type} (element : α) (b : Broker α) (name : String) : Broker α :=
  if (b.requestsMap name).length = 0 ∧ b.pending name = false then
    { fireRequest b name element with pending := Function.update b.pending name true }
  else
    { b with
      requestsMap := Function.update b.requestsMap name (b.requestsMap name ++ [element]) }

/-- The case `<-e.requests.Signal()` with an element in the queue. -/
def onRequest {α : Type} (srcs : List String) (b : Broker α) (element : α) : Broker α :=
  (nameToSrcKeys srcs).foldl (offer element) { b with taken := b.taken ++ [element] }

/-- The case `name := <-finished`: the signal of one delivery is consumed. -/
def onFinished {α : Type} (b : Broker α) (name : String) : Broker α :=
  let b0 := { b with inflight := Function.update b.inflight name (b.inflight name - 1) }
  match b.requestsMap name with
  | [] => { b0 with pending := Function.update b.pending name false }
  | req :: rest =>
    fireRequest { b0 with requestsMap := Function.update b.requestsMap name rest } name req

/-- The states the broker loop reaches: a request is taken from the queue, or a
`finished` signal is received, which takes a delivery to that source in flight. -/
inductive Broker.Reachable {α : Type} (srcs : List String) : Broker α → Prop
  | init : Broker.Reachable srcs (Broker.init α)
  | request (b : Broker α) (element : α) :
      Broker.Reachable srcs b → Broker.Reachable srcs (onRequest srcs b element)
  | finished (b : Broker α) (name : String) :
      Broker.Reachable srcs b → 0 < b.inflight name →
      Broker.Reachable srcs (onFinished b name)

/-- Per source: a delivery is in flight exactly when the source is pending,
then exactly one; a backlog is only kept for a pending source. -/
def Broker.Inv {α : Type} (b : Broker α) (name : String) : Prop :=
  (b.pending name = true → b.inflight name = 1) ∧
    (b.pending name = false → b.inflight name = 0) ∧
    (b.requestsMap name ≠ [] → b.pending name = true)

/-! ## Pacing -/

/-- The loop of `releaseOutput`: each round is one non-blocking send on
`release`, which adds a token unless the channel holds `max` of them. -/
def releaseLoop : Nat → enumSource → enumSource
  | 0, r => r
  | n + 1, r =>
    releaseLoop n (if r.release < r.max then { r with release := r.release + 1 } else r)

/-- Models `enumSource.releaseOutput`: `num` rounds, none when `num ≤ 0`. -/
def releaseOutput (r : enumSource) (num : Int) : enumSource :=
  releaseLoop num.toNat r

/-- Models `enumSource.fillQueue`, up to the start of `requestSweeps`, which
runs on its own afterwards. -/
def fillQueue (r : enumSource) : enumSource :=
  let unfilled : Int := (r.max : Int) - (r.queue.length : Int)
  if unfilled > 0 then
    let fill : Int := unfilled - (r.release : Int)
    if fill > 0 then releaseOutput r fill else r
  else r

/-- Models `enumSource.incrementCount`: the 32-bit counter and its new value. -/
def incrementCount (r : enumSource) : Nat × enumSource :=
  if r.count < 2 ^ 32 - 1 then (r.count + 1, { r with count := r.count + 1 })
  else (0, { r with count := 0 })

/-- Models `enumSource.Data`: the element handed to the pipeline, the sequence
number sent on `inputsig`, and the state after the call. -/
def enumSource.Data (r : enumSource) : Option Amass.Data × Option Nat × enumSource :=
  match r.queue with
  | [] => (none, none, r)
  | element :: rest =>
    let c := incrementCount { r with queue := rest }
    (some element, some c.1, c.2)

/-! ## Sweep generator -/

def defaultSweepSize : Nat := 100

def activeSweepSize : Nat := 200

/-- The request appended to `queue` for a swept address. -/
def sweepRequest (a : String) (req : AddrRequest) : AddrRequest :=
  { Address := a, InScope := false, Domain := req.Domain, Tag := req.Tag, Source := req.Source }

/-- The loop of `sweepAddrs` over the addresses of the CIDR subset. `ctxDone i`
tells whether the context is seen cancelled in round `i`; `sweepFilter.TestAndAdd`
is a membership test followed by an insertion. -/
def sweepLoop (ctxDone : Nat → Bool) (req : AddrRequest) :
    List String → Nat → Nat → enumSource → Nat × enumSource
  | [], _, count, r => (count, r)
  | a :: ips, i, count, r =>
    if ctxDone i then (count, r)
    else if a ∈ r.sweepFilter then sweepLoop ctxDone req ips (i + 1) count r
    else
      sweepLoop ctxDone req ips (i + 1) (count + 1)
        { r with
          sweepFilter := r.sweepFilter ++ [a]
          queue := r.queue ++ [Amass.Data.addr (sweepRequest a req)] }

/-- One call of `sweepAddrs`: the driving request, the addresses
`amassnet.CIDRSubset(r.addrCIDR(req.Address), req.Address, size)` gives for a
size, as strings, and the rounds in which the context is seen cancelled. -/
structure SweepCall where
  req : AddrRequest
  CIDRSubset : Nat → List String
  ctxDone : Nat → Bool

/-- Models `enumSource.sweepAddrs`; `active` is `r.enum.Config.Active`. -/
def sweepAddrs (active : Bool) (r : enumSource) (c : SweepCall) : Nat × enumSource :=
  let size := if active then activeSweepSize else defaultSweepSize
  sweepLoop c.ctxDone c.req (c.CIDRSubset size) 0 0 r

/-- Runs a sequence of `sweepAddrs` calls, collecting the returned counts. -/
def sweepAll (active : Bool) : enumSource → List SweepCall → List Nat × enumSource
  | r, [] => ([], r)
  | r, c :: cs =>
    let out := sweepAddrs active r c
    let rest := sweepAll active out.2 cs
    (out.1 :: rest.1, rest.2)

/-- Models `enumSource.requestSweeps` run with nothing else touching `queue`
or `sweeps`. `round` numbers the rounds of the `for` loop; `subset round` and
`ctxDone round` give the CIDR subset and the cancellation seen by the
`sweepAddrs` call of that round. The loop is run for at most `rounds` rounds:
`none` says it has not returned within them. -/
def requestSweeps (active : Bool) (subset : Nat → Nat → List String)
    (ctxDone : Nat → Nat → Bool) : Nat → Nat → enumSource → Option enumSource
  | 0, _, _ => none
  | rounds + 1, round, r =>
    if (r.max : Int) - (r.queue.length : Int) ≤ 0 then some r
    else
      match r.sweeps with
      | [] => requestSweeps active subset ctxDone rounds (round + 1) r
      | e :: rest =>
        requestSweeps active subset ctxDone rounds (round + 1)
          (sweepAddrs active { r with sweeps := rest }
            { req := e, CIDRSubset := subset round, ctxDone := ctxDone round }).2

/-! ## Duplicate tracker -/

/-- The `altsource` entries of `processDupNames`. -/
structure altsource where
  Name : String
  Source : String
  Tag : String
  Min : Nat
  Countdown : Int
  deriving DecidableEq, Repr

/-- The variables of the `inputsig` case of `processDupNames`: the backing
array of `pending`, `removed`, and the entries whose `addSourceToEntry` call
was started, in order. -/
structure DupPass where
  pending : List altsource
  removed : Nat
  fired : List altsource
  deriving DecidableEq, Repr

/-- The `for i, a := range pending` loop of the `inputsig` case, from index `i`
with `rounds` rounds left; `len` is `len(pending)`, which the loop does not
change. Round `i` reads the entry at index `i`, which no earlier round
decrements, so the entries are kept by value. -/
def dupLoop (num : Nat) (len : Nat) : Nat → Nat → DupPass → DupPass
  | 0, _, st => st
  | rounds + 1, i, st =>
    if (i : Int) ≥ (len : Int) - (st.removed : Int) then st
    else
      match st.pending.get? i with
      | none => st
      | some a =>
        let a1 := if num ≥ a.Min then { a with Countdown := a.Countdown - 1 } else a
        let p1 := st.pending.set i a1
        if a1.Countdown ≤ 0 then
          let removed := st.removed + 1
          dupLoop num len rounds (i + 1)
            { pending := p1.set i (p1.getD (len - removed) a1)
              removed := removed
              fired := st.fired ++ [a1] }
        else dupLoop num len rounds (i + 1) { st with pending := p1 }

/-- The `inputsig` case of `processDupNames` for the sequence number `num`:
the new `pending` and the entries whose `addSourceToEntry` call was started. -/
def processInputSig (num : Nat) (pending : List altsource) :
    List altsource × List altsource :=
  let st := dupLoop num pending.length pending.length 0
    { pending := pending, removed := 0, fired := [] }
  (if st.removed > 0 then st.pending.take (pending.length - st.removed) else st.pending,
    st.fired)

/-- What a round of the `inputsig` loop does to the entry it visits:
`a.Countdown--` when `num >= a.Min`. -/
def tick (num : Nat) (a : altsource) : altsource :=
  if num ≥ a.Min then { a with Countdown := a.Countdown - 1 } else a

/-- An entry after a pass, against the entry before it: left as it was or
visited once. -/
def SameEntry (num : Nat) (a b : altsource) : Prop :=
  b = a ∨ b = tick num a

/-! ## Input source as a transition system -/

/-- Where the call of `fillQueue` made by `Next` stands. -/
inductive FillPhase where
  /-- No call is under way. -/
  | idle
  /-- The call has computed `unfilled` from `queue.Len()` and found it positive. -/
  | unfilled (unfilled : Int)
  /-- The loop of `releaseOutput` has `left` rounds to go. -/
  | sending (left : Nat)
  deriving DecidableEq, Repr

/-- Where the `requestSweeps` call that holds `sweepLock` stands. -/
inductive SweepPhase where
  /-- At the head of the `for` loop, or no call holds the lock. -/
  | idle
  /-- The loop has seen `unfilled > 0`; `r.sweeps.Next()` comes next. -/
  | checked
  /-- The loop of `sweepAddrs` for `req` has the addresses `ips` left and is in
  round `round`. -/
  | running (req : AddrRequest) (ips : List String) (round : Nat)
  deriving DecidableEq, Repr

/-- The input source and the goroutines that work on `queue` and `release`:
`holding` counts the `monitorDataSrcOutput` goroutines that have taken a token
and not yet called `newName` or `newAddr`, `fill` and `sweep` say where
`fillQueue` and `requestSweeps` stand, `passes` counts the `requestSweeps`
calls started and not yet returned. Two counters are kept for the proofs: the
requests appended to `queue` by calls of `newName` that took no token, and
those appended by `sweepAddrs`. -/
structure InputState where
  src : enumSource
  seeded : Nat
  swept : Nat
  holding : Nat
  fill : FillPhase
  sweep : SweepPhase
  passes : Nat
  deriving DecidableEq, Repr

/-- The operations on the input source, each with at most one access to
`queue` or `release`. -/
inductive InputEvent where
  /-- A call of `newName` by `submitDomainNames`, `submitKnownNames` or
  `submitProvidedNames`. -/
  | seed (req : DNSRequest)
  /-- `monitorDataSrcOutput` receives from `release`. -/
  | watchTake
  /-- `monitorDataSrcOutput` calls `newName` with the name it read. -/
  | watchName (req : DNSRequest)
  /-- `monitorDataSrcOutput` calls `newAddr` with the address it read. -/
  | watchAddr (req : AddrRequest)
  /-- `monitorDataSrcOutput` finds a payload that is neither. -/
  | watchOther
  /-- `fillQueue` computes `unfilled`. -/
  | fillRead
  /-- `fillQueue` computes `fill` from `len(r.release)`. -/
  | fillLen
  /-- One round of the loop of `releaseOutput`, or its end. -/
  | fillSend
  /-- `requestSweeps` computes `unfilled` at the head of its loop. -/
  | sweepCheck
  /-- `requestSweeps` calls `r.sweeps.Next()` and enters `sweepAddrs`. -/
  | sweepPop (CIDRSubset : Nat → List String)
  /-- One round of the loop of `sweepAddrs`, or its end. -/
  | sweepRound (ctxDone : Bool)
  /-- A call of `Data`. -/
  | take
  /-- A call of `Stop`. -/
  | stop

/-- The state after an operation of one of `watchers` watchers, of `Next`, of
the sweep generator, of the seeder or of the pipeline; `none` when the
operation cannot run in the state. -/
def inputStep (env : Env) (active : Bool) (watchers : Nat) (s : InputState) :
    InputEvent → Option InputState
  | .seed req =>
    let r1 := newName env s.src req
    some { s with src := r1, seeded := s.seeded + (r1.queue.length - s.src.queue.length) }
  | .watchTake =>
    if 0 < s.src.release ∧ s.holding < watchers then
      some { s with
        src := { s.src with release := s.src.release - 1 }
        holding := s.holding + 1 }
    else none
  | .watchName req =>
    if 0 < s.holding then
      some { s with src := newName env s.src req, holding := s.holding - 1 }
    else none
  | .watchAddr req =>
    if 0 < s.holding then
      some { s with src := newAddr env s.src req, holding := s.holding - 1 }
    else none
  | .watchOther =>
    if 0 < s.holding then some { s with holding := s.holding - 1 } else none
  | .fillRead =>
    match s.fill with
    | .idle =>
      let unfilled : Int := (s.src.max : Int) - (s.src.queue.length : Int)
      some { s with fill := if unfilled > 0 then .unfilled unfilled else .idle }
    | _ => none
  | .fillLen =>
    match s.fill with
    | .unfilled unfilled =>
      let fill : Int := unfilled - (s.src.release : Int)
      if fill > 0 then some { s with fill := .sending fill.toNat }
      else some { s with fill := .idle, passes := s.passes + 1 }
    | _ => none
  | .fillSend =>
    match s.fill with
    | .sending (left + 1) => some { s with src := releaseLoop 1 s.src, fill := .sending left }
    | .sending 0 => some { s with fill := .idle, passes := s.passes + 1 }
    | _ => none
  | .sweepCheck =>
    match s.sweep with
    | .idle =>
      if s.passes = 0 then none
      else if (s.src.max : Int) - (s.src.queue.length : Int) ≤ 0 then
        some { s with passes := s.passes - 1 }
      else some { s with sweep := .checked }
    | _ => none
  | .sweepPop subset =>
    match s.sweep with
    | .checked =>
      match s.src.sweeps with
      | [] => some { s with sweep := .idle }
      | e :: rest =>
        some { s with
          src := { s.src with sweeps := rest }
          sweep := .running e (subset (if active then activeSweepSize else defaultSweepSize)) 0 }
    | _ => none
  | .sweepRound ctxDone =>
    match s.sweep with
    | .running _ [] _ => some { s with sweep := .idle }
    | .running req (a :: ips) round =>
      let out := sweepLoop (fun _ => ctxDone) req [a] round 0 s.src
      some { s with
        src := out.2
        swept := s.swept + out.1
        sweep := if ctxDone then .idle else .running req ips (round + 1) }
    | _ => none
  | .take => some { s with src := s.src.Data.2.2 }
  | .stop =>
    some { s with
      src := { s.src with
        queue := [], dups := [], sweeps := [], filter := [], sweepFilter := [], done := true } }

/-- The start of the input source for a resolver rate `qps`. -/
def InputState.init (qps : Int) : InputState :=
  { src := newEnumSource qps, seeded := 0, swept := 0, holding := 0
    fill := .idle, sweep := .idle, passes := 0 }

/-- The states of the input source reached by its operations. -/
inductive InputState.Reachable (env : Env) (active : Bool) (watchers : Nat) (qps : Int) :
    InputState → Prop
  | init : InputState.Reachable env active watchers qps (InputState.init qps)
  | step (s t : InputState) (ev : InputEvent) :
      InputState.Reachable env active watchers qps s →
      inputStep env active watchers s ev = some t →
      InputState.Reachable env active watchers qps t

/-- Runs a list of operations in turn, `none` when one of them cannot run. -/
def runEvents (env : Env) (active : Bool) (watchers : Nat) :
    InputState → List InputEvent → Option InputState
  | s, [] => some s
  | s, ev :: evs =>
    match inputStep env active watchers s ev with
    | none => none
    | some t => runEvents env active watchers t evs

/-- The tokens a call of `fillQueue` under way may still send. -/
def pendingFill : FillPhase → Nat
  | .idle => 0
  | .unfilled unfilled => unfilled.toNat
  | .sending left => left

/-- What every operation of the input source keeps: `max` is the clamped rate,
`release` holds at most `max` tokens, at most `watchers` tokens are held by
watchers, and queued items, tokens, held tokens and tokens still to be sent
stay within twice `max` plus `watchers` plus the requests appended without a
token. -/
def InputState.Bounded (watchers : Nat) (qps : Int) (s : InputState) : Prop :=
  s.src.max = (max qps 1000).toNat ∧ s.src.release ≤ s.src.max ∧ s.holding ≤ watchers ∧
    s.src.queue.length + s.src.release + s.holding + pendingFill s.fill ≤
      2 * s.src.max + watchers + s.seeded + s.swept

/-! ## Selecting data sources -/

/-- A data source as `SelectedDataSources` sees it: `Name` is what `String()`
returns. -/
structure Service where
  Name : String
  Description : String
  deriving DecidableEq, Repr

/-- The `SourceFilter` of the configuration. -/
structure SourceFilter where
  Include : Bool
  Sources : List String
  deriving DecidableEq, Repr

/-- The `Insert` of a `stringset.Set`, the set being a list of names without
repetition. -/
def stringsetInsert (set : List String) (element : String) : List String :=
  if element ∈ set then set else set ++ [element]

/-- The `InsertMany` of a `stringset.Set`. -/
def stringsetInsertMany (set : List String) (elements : List String) : List String :=
  elements.foldl stringsetInsert set

/-- The `Intersect` of a `stringset.Set`: the names also held by `other`. -/
def stringsetIntersect (set other : List String) : List String :=
  set.filter fun element => decide (element ∈ other)

/-- The `Subtract` of a `stringset.Set`: the names not held by `other`. -/
def stringsetSubtract (set other : List String) : List String :=
  set.filter fun element => decide (element ∉ other)

/-- The ordering `sort.Slice` is called with: by `String()`. Go leaves the
order of sources of equal name open; the insertion sort keeps their order. -/
def sortByName (srvs : List Service) : List Service :=
  srvs.insertionSort fun a b => a.Name ≤ b.Name

/-- Models `SelectedDataSources`. -/
def SelectedDataSources (cfg : SourceFilter) (avail : List Service) : List Service :=
  let specified := stringsetInsertMany [] cfg.Sources
  let available := avail.foldl (fun set src => stringsetInsert set src.Name) []
  let available :=
    if specified.length > 0 && cfg.Include then stringsetIntersect available specified
    else stringsetSubtract available specified
  let results := avail.filter fun src => decide (src.Name ∈ available)
  sortByName results

/-! ## Passive-mode filter -/

/-- A `pipeline.Data` value as the type switch of `filterTaskFunc` tells them
apart: a name request, an address request, each possibly a nil pointer, or a
value of another type. -/
inductive PipelineData where
  | dns (v : Option DNSRequest)
  | addr (v : Option AddrRequest)
  | other (payload : String)
  deriving DecidableEq, Repr

/-- Go's `strconv.Itoa`. -/
def Itoa (n : Int) : String :=
  toString n

/-- The last statement of the task of `filterTaskFunc`: the data is passed on
when `name` is not empty and `filter.TestAndAdd` does not know `name+qtype`. -/
def filterTestAndAdd (filter : List String) (data : PipelineData) (name qtype : String) :
    (Option PipelineData × Option String) × List String :=
  if name = "" then ((none, none), filter)
  else if name ++ qtype ∈ filter then ((none, none), filter)
  else ((some data, none), filter ++ [name ++ qtype])

/-- Models the task returned by `filterTaskFunc`: the data and the error it
returns, and the filter after the call. `ctxDone` tells whether the context
is cancelled. -/
def filterTaskFunc (env : Env) (ctxDone : Bool) (filter : List String) (data : PipelineData) :
    (Option PipelineData × Option String) × List String :=
  if ctxDone then ((none, none), filter)
  else
    match data with
    | .dns v =>
      match v with
      | some req =>
        if env.ValidDNS req then
          match req.Records with
          | rec :: _ => filterTestAndAdd filter data req.Name (Itoa rec.RRType)
          | [] => filterTestAndAdd filter data req.Name ""
        else filterTestAndAdd filter data "" ""
      | none => filterTestAndAdd filter data "" ""
    | .addr v =>
      match v with
      | some req =>
        if env.ValidAddr req then filterTestAndAdd filter data req.Address ""
        else filterTestAndAdd filter data "" ""
      | none => filterTestAndAdd filter data "" ""
    | .other _ => ((some data, none), filter)

/-- Passes a sequence of items through the task, collecting what it returns. -/
def filterTaskAll (env : Env) (ctxDone : Bool) :
    List String → List PipelineData → List (Option PipelineData × Option String) × List String
  | filter, [] => ([], filter)
  | filter, data :: rest =>
    let out := filterTaskFunc env ctxDone filter data
    let outs := filterTaskAll env ctxDone out.2 rest
    (out.1 :: outs.1, outs.2)

/-- The key of an item, for valid requests only: the name followed by the
decimal type of the first record, the name alone without records, or the
address. -/
def filterKey (env : Env) : PipelineData → Option String
  | .dns (some req) =>
    if env.ValidDNS req then
      match req.Records with
      | rec :: _ => some (req.Name ++ Itoa rec.RRType)
      | [] => some req.Name
    else none
  | .addr (some req) => if env.ValidAddr req then some req.Address else none
  | _ => none

/-- What the filter is expected to return for an item that comes after the
items `earlier`: other kinds pass, requests without a key are dropped, a keyed
request passes when no earlier item has its key. -/
def filterExpected (env : Env) (earlier : List PipelineData) (data : PipelineData) :
    Option PipelineData × Option String :=
  match data with
  | .other _ => (some data, none)
  | _ =>
    match filterKey env data with
    | none => (none, none)
    | some key =>
      if some key ∈ earlier.map (filterKey env) then (none, none) else (some data, none)

/-- The result of one call in terms of the filter held before it. -/
def filterExpectedIn (env : Env) (filter : List String) (data : PipelineData) :
    Option PipelineData × Option String :=
  match data with
  | .other _ => (some data, none)
  | _ =>
    match filterKey env data with
    | none => (none, none)
    | some key => if key ∈ filter then (none, none) else (some data, none)

/-! ## Concrete inputs -/

/-- An instance of the external functions on which the model is evaluated:
`dns`, `cert` and `archive` are the trusted tags, a request is valid when its
name or address is not empty, names are kept as they are and match the regular
expression, no address is reserved. -/
def stubEnv : Env :=
  { TrustedTag := fun tag => tag == "dns" || tag == "cert" || tag == "archive"
    ValidDNS := fun req => req.Name != ""
    ValidAddr := fun req => req.Address != ""
    SanitizeDNSRequest := fun req => req
    FindString := fun name => name
    IsReservedAddress := fun _ => false }

/-- The name request for `name` with a tag and a source. -/
def nameRequest (name tag source : String) : DNSRequest :=
  { Name := name, Domain := "example.com", Records := [], Tag := tag, Source := source }

/-- The name without its labels up to the last `*` label. -/
def afterAsterisk (name : String) : String :=
  String.mk (List.intercalate ['.']
    ((splitDot name.data).reverse.takeWhile fun label => label != ['*']).reverse)

/-- An instance of the external functions whose clean-up changes the name: as
`stubEnv`, with `SanitizeDNSRequest` dropping the labels up to the last `*`. -/
def stripEnv : Env :=
  { stubEnv with
    SanitizeDNSRequest := fun req => { req with Name := afterAsterisk req.Name } }

/-- Two pending entries of the duplicate tracker: the first added at count 10
and one tick from its end, the second added at count 13. -/
def pendingPair : List altsource :=
  [{ Name := "a.example.com", Source := "crtsh", Tag := "cert", Min := 10, Countdown := 1 },
   { Name := "b.example.com", Source := "fofa", Tag := "api", Min := 13, Countdown := 4 }]

/-- Two sweeps around neighbouring addresses, whose subsets share an address. -/
def sweepPair : List SweepCall :=
  [{ req := { Address := "192.0.2.10", InScope := true, Domain := "example.com",
              Tag := "dns", Source := "DNS" }
     CIDRSubset := fun _ => ["192.0.2.9", "192.0.2.10", "192.0.2.11"]
     ctxDone := fun _ => false },
   { req := { Address := "192.0.2.11", InScope := true, Domain := "example.com",
              Tag := "dns", Source := "DNS" }
     CIDRSubset := fun _ => ["192.0.2.10", "192.0.2.11", "192.0.2.12"]
     ctxDone := fun _ => false }]

/-- The `i`-th of a family of pairwise different names: `i + 1` letters `a`. -/
def seedName (i : Nat) : DNSRequest :=
  nameRequest (String.mk (List.replicate (i + 1) 'a')) "dns" "User Input"

/-- The input source after `newName` accepted the first `n` names of `seedName`. -/
def seededState (n : Nat) : InputState :=
  { src :=
      { newEnumSource 0 with
        queue := (List.range n).map fun i => Data.dns (seedName i)
        filter := (List.range n).map fun i => (seedName i).Name ++ FormatBool true }
    seeded := n
    swept := 0
    holding := 0
    fill := .idle
    sweep := .idle
    passes := 0 }

/-- A watcher takes a token, `fillQueue` runs from start to end, and only then
the watcher hands in its name. -/
def raceEvents : List InputEvent :=
  [.watchTake, .fillRead, .fillLen, .fillSend, .fillSend,
   .watchName (nameRequest "x.example.com" "cert" "crtsh")]

/-- The state `raceEvents` leads to from the start with `max = 1000`: one
request queued and `release` full again. -/
def raceState : InputState :=
  { src :=
      { newEnumSource 0 with
        queue := [Data.dns (nameRequest "x.example.com" "cert" "crtsh")]
        filter := ["x.example.com" ++ FormatBool true] }
    seeded := 0
    swept := 0
    holding := 0
    fill := .idle
    sweep := .idle
    passes := 1 }

/-- A passive-mode run: the name `a.example.com` with an A record twice, with
an address, a request without a name and an item of another kind in between. -/
def passiveItems : List PipelineData :=
  [.dns (some { Name := "a.example.com", Domain := "example.com",
                Records := [{ Name := "a.example.com", RRType := 1, TTL := 60,
                              Data := "192.0.2.1" }],
                Tag := "cert", Source := "crtsh" }),
   .addr (some { Address := "192.0.2.1", InScope := true, Domain := "example.com",
                 Tag := "dns", Source := "DNS" }),
   .dns (some (nameRequest "" "api" "fofa")),
   .other "asn",
   .dns (some { Name := "a.example.com", Domain := "example.com",
                Records := [{ Name := "a.example.com", RRType := 1, TTL := 300,
                              Data := "192.0.2.1" }],
                Tag := "api", Source := "fofa" })]

/-! # Theorems -/

/-! ## Fingerprint keys -/

theorem key_true_ne_false (s t : String) : s ++ FormatBool true ≠ t ++ FormatBool false := by
  intro h
  have h1 := congrArg (fun x => x.data.reverse) h
  simp [FormatBool, String.data_append] at h1

theorem key_inj (s t : String) (b : Bool) (h : s ++ FormatBool b = t ++ FormatBool b) :
    s = t := by
  have h1 := congrArg String.data h
  simp only [String.data_append, List.append_left_inj] at h1
  exact String.ext h1

theorem key_eq_iff (s t : String) (a b : Bool) :
    s ++ FormatBool a = t ++ FormatBool b ↔ s = t ∧ a = b := by
  constructor
  · intro h
    cases a <;> cases b
    · exact ⟨key_inj _ _ _ h, rfl⟩
    · exact absurd h.symm (key_true_ne_false _ _)
    · exact absurd h (key_true_ne_false _ _)
    · exact ⟨key_inj _ _ _ h, rfl⟩
  · rintro ⟨rfl, rfl⟩
    rfl

/-! ## The acceptance decision -/

theorem accept_fst (env : Env) (r : enumSource) (s tag source : String) (name : Bool) :
    (accept env r s tag source name).1 =
      (decide (s ++ FormatBool (env.TrustedTag tag) ∉ r.filter) &&
        (env.TrustedTag tag || decide (s ++ FormatBool true ∉ r.filter))) := by
  unfold accept
  cases ht : env.TrustedTag tag <;>
    by_cases h1 : s ++ FormatBool true ∈ r.filter <;>
    by_cases h2 : s ++ FormatBool false ∈ r.filter <;> simp [h1, h2]

theorem accept_snd (env : Env) (r : enumSource) (s tag source : String) (name : Bool) :
    (accept env r s tag source name).2 =
      if (accept env r s tag source name).1 then
        { r with filter := r.filter ++ [s ++ FormatBool (env.TrustedTag tag)] }
      else if name then { r with dups := r.dups ++ [dupRequest s tag source] }
      else r := by
  unfold accept
  cases ht : env.TrustedTag tag <;>
    by_cases h1 : s ++ FormatBool true ∈ r.filter <;>
    by_cases h2 : s ++ FormatBool false ∈ r.filter <;> simp [h1, h2]

theorem accept_filter (env : Env) (r : enumSource) (s tag source : String) (name : Bool) :
    (accept env r s tag source name).2.filter =
      if (accept env r s tag source name).1 then
        r.filter ++ [s ++ FormatBool (env.TrustedTag tag)]
      else r.filter := by
  rw [accept_snd]
  cases (accept env r s tag source name).1 <;> cases name <;> simp

theorem accept_eq_false_of_mem (env : Env) (r : enumSource) (s tag source : String)
    (name : Bool) (h1 : s ++ FormatBool false ∈ r.filter)
    (h2 : s ++ FormatBool true ∈ r.filter) :
    (accept env r s tag source name).1 = false := by
  rw [accept_fst]
  cases env.TrustedTag tag <;> simp [h1, h2]

/-- C1: from a filter holding neither fingerprint of `s`, an untrusted sighting
followed by a trusted one is accepted both times, a trusted sighting followed by
an untrusted one is accepted then rejected, in both orders every later call for
`s` is rejected, and whenever both fingerprints are in the filter every call for
`s` is rejected. -/
theorem accept_trust_order (env : Env) (r : enumSource) (s ut tt su st : String)
    (n1 n2 : Bool) (hu : env.TrustedTag ut = false) (ht : env.TrustedTag tt = true)
    (hf : s ++ FormatBool false ∉ r.filter) (ht' : s ++ FormatBool true ∉ r.filter) :
    ((accept env r s ut su n1).1 = true ∧
      (accept env (accept env r s ut su n1).2 s tt st n2).1 = true ∧
      ∀ tag source name,
        (accept env (accept env (accept env r s ut su n1).2 s tt st n2).2
          s tag source name).1 = false) ∧
    ((accept env r s tt st n1).1 = true ∧
      (accept env (accept env r s tt st n1).2 s ut su n2).1 = false ∧
      ∀ tag source name,
        (accept env (accept env (accept env r s tt st n1).2 s ut su n2).2
          s tag source name).1 = false) ∧
    (∀ r2 : enumSource, s ++ FormatBool false ∈ r2.filter →
      s ++ FormatBool true ∈ r2.filter →
      ∀ tag source name, (accept env r2 s tag source name).1 = false) := by
  have hne : s ++ FormatBool true ≠ s ++ FormatBool false := key_true_ne_false s s
  have a1 : (accept env r s ut su n1).1 = true := by
    rw [accept_fst]; simp [hu, hf, ht']
  have f1 : (accept env r s ut su n1).2.filter = r.filter ++ [s ++ FormatBool false] := by
    rw [accept_filter, a1, hu]; rfl
  have a2 : (accept env (accept env r s ut su n1).2 s tt st n2).1 = true := by
    rw [accept_fst, f1]; simp [ht, ht', hne]
  have f2 : (accept env (accept env r s ut su n1).2 s tt st n2).2.filter =
      r.filter ++ [s ++ FormatBool false] ++ [s ++ FormatBool true] := by
    rw [accept_filter, a2, ht, f1]; rfl
  have b1 : (accept env r s tt st n1).1 = true := by
    rw [accept_fst]; simp [ht, ht']
  have g1 : (accept env r s tt st n1).2.filter = r.filter ++ [s ++ FormatBool true] := by
    rw [accept_filter, b1, ht]; rfl
  have b2 : (accept env (accept env r s tt st n1).2 s ut su n2).1 = false := by
    rw [accept_fst, g1]; simp [hu]
  have g2 : (accept env (accept env r s tt st n1).2 s ut su n2).2.filter =
      r.filter ++ [s ++ FormatBool true] := by
    rw [accept_filter, b2, g1]; rfl
  refine ⟨⟨a1, a2, ?_⟩, ⟨b1, b2, ?_⟩, ?_⟩
  · intro tag source name
    apply accept_eq_false_of_mem <;> rw [f2] <;> simp
  · intro tag source name
    rw [accept_fst, g2]
    cases env.TrustedTag tag <;> simp
  · intro r2 h1 h2 tag source name
    exact accept_eq_false_of_mem env r2 s tag source name h1 h2

theorem accept_trust_order_witness :
    stubEnv.TrustedTag "scrape" = false ∧ stubEnv.TrustedTag "cert" = true ∧
    "x.example.com" ++ FormatBool false ∉ (newEnumSource 0).filter ∧
    "x.example.com" ++ FormatBool true ∉ (newEnumSource 0).filter ∧
    (accept stubEnv (newEnumSource 0) "x.example.com" "scrape" "s1" true).1 = true ∧
    (accept stubEnv (accept stubEnv (newEnumSource 0) "x.example.com" "scrape" "s1" true).2
      "x.example.com" "cert" "s2" true).1 = true ∧
    (accept stubEnv (newEnumSource 0) "x.example.com" "cert" "s2" true).1 = true ∧
    (accept stubEnv (accept stubEnv (newEnumSource 0) "x.example.com" "cert" "s2" true).2
      "x.example.com" "scrape" "s1" true).1 = false :=
  have h := accept_trust_order stubEnv (newEnumSource 0) "x.example.com" "scrape" "cert"
    "s1" "s2" true true (by decide) (by decide) (by decide) (by decide)
  ⟨by decide, by decide, by decide, by decide, h.1.1, h.1.2.1, h.2.1.1, h.2.1.2.1⟩

/-- C3: a rejected call leaves the state unchanged except that, for a name, one
request carrying `(s, tag, source)` is appended to `dups`; an accepted call
changes only `filter`, to which the one key of `(s, TrustedTag tag)`, not held
before, is added. -/
theorem accept_effect (env : Env) (r : enumSource) (s tag source : String) (name : Bool) :
    (accept env r s tag source name).2 =
      (if (accept env r s tag source name).1 then
        { r with filter := r.filter ++ [s ++ FormatBool (env.TrustedTag tag)] }
      else if name then { r with dups := r.dups ++ [dupRequest s tag source] }
      else r) ∧
    (dupRequest s tag source).Name = s ∧ (dupRequest s tag source).Tag = tag ∧
    (dupRequest s tag source).Source = source ∧
    ((accept env r s tag source name).1 &&
      decide (s ++ FormatBool (env.TrustedTag tag) ∈ r.filter)) = false := by
  refine ⟨accept_snd env r s tag source name, rfl, rfl, rfl, ?_⟩
  rw [accept_fst]
  by_cases h : s ++ FormatBool (env.TrustedTag tag) ∈ r.filter <;> simp [h]

/-! ## Sequences of acceptance decisions -/

theorem acceptedPrints_nil (env : Env) (r : enumSource) : acceptedPrints env r [] = [] := rfl

theorem acceptedPrints_cons (env : Env) (r : enumSource) (c : AcceptCall)
    (cs : List AcceptCall) :
    acceptedPrints env r (c :: cs) =
      if (accept env r c.s c.tag c.source c.name).1 then
        (c.s, env.TrustedTag c.tag) ::
          acceptedPrints env (accept env r c.s c.tag c.source c.name).2 cs
      else acceptedPrints env (accept env r c.s c.tag c.source c.name).2 cs := by
  cases h : (accept env r c.s c.tag c.source c.name).1 <;>
    simp [acceptedPrints, acceptAll, h]

theorem acceptedPrints_fresh (env : Env) (cs : List AcceptCall) :
    ∀ r : enumSource, ∀ p ∈ acceptedPrints env r cs,
      p.1 ++ FormatBool p.2 ∉ r.filter ∧ p.1 ++ FormatBool true ∉ r.filter := by
  induction cs with
  | nil => intro r p hp; simp [acceptedPrints_nil] at hp
  | cons c cs ih =>
    intro r p hp
    rw [acceptedPrints_cons] at hp
    have hflt := accept_filter env r c.s c.tag c.source c.name
    cases h : (accept env r c.s c.tag c.source c.name).1
    · rw [h] at hp hflt
      simp only [Bool.false_eq_true, if_false] at hp hflt
      have := ih _ p hp
      rwa [hflt] at this
    · rw [h] at hp hflt
      simp only [if_true] at hp hflt
      rcases List.mem_cons.1 hp with rfl | hp
      · rw [accept_fst] at h
        simp only [Bool.and_eq_true, decide_eq_true_eq, Bool.or_eq_true] at h
        refine ⟨h.1, ?_⟩
        rcases h.2 with h2 | h2
        · simpa [h2] using h.1
        · exact h2
      · have := ih _ p hp
        rw [hflt] at this
        simp only [List.mem_append, not_or] at this
        exact ⟨this.1.1, this.2.1⟩

theorem acceptedPrints_pairwise (env : Env) (cs : List AcceptCall) :
    ∀ r : enumSource, (acceptedPrints env r cs).Pairwise UntrustedFirst := by
  induction cs with
  | nil => intro r; simp [acceptedPrints_nil]
  | cons c cs ih =>
    intro r
    rw [acceptedPrints_cons]
    cases h : (accept env r c.s c.tag c.source c.name).1
    · simpa using ih _
    · simp only [if_true]
      refine List.pairwise_cons.2 ⟨?_, ih _⟩
      intro q hq hs
      have hfr := acceptedPrints_fresh env cs _ q hq
      have hflt := accept_filter env r c.s c.tag c.source c.name
      rw [h] at hflt
      simp only [if_true] at hflt
      rw [hflt] at hfr
      simp only [List.mem_append, List.mem_singleton, not_or, key_eq_iff] at hfr
      simp only at hs
      obtain ⟨⟨-, h1⟩, ⟨-, h2⟩⟩ := hfr
      have ht : env.TrustedTag c.tag = false := by
        cases hc : env.TrustedTag c.tag
        · rfl
        · exact absurd ⟨hs.symm, hc.symm⟩ h2
      refine ⟨ht, ?_⟩
      cases hq2 : q.2
      · exact absurd ⟨hs.symm, hq2.trans ht.symm⟩ h1
      · rfl

theorem pairwise_untrustedFirst_length (s : String) :
    ∀ l : List (String × Bool), l.Pairwise UntrustedFirst → (∀ p ∈ l, p.1 = s) →
      l.length ≤ 2
  | [], _, _ => by simp
  | [_], _, _ => by simp
  | [_, _], _, _ => by simp
  | p :: q :: x :: l, hp, hs => by
    exfalso
    have hps := hs p (by simp)
    have hqs := hs q (by simp)
    have hxs := hs x (by simp)
    rw [List.pairwise_cons, List.pairwise_cons] at hp
    have h1 := hp.1 q (by simp) (hps.trans hqs.symm)
    have h2 := hp.2.1 x (by simp) (hqs.trans hxs.symm)
    rw [h1.2] at h2
    exact Bool.noConfusion h2.1

/-- C2: over any sequence of `accept` calls, from an empty filter or any other, the accepted
fingerprints are pairwise distinct, two accepted sightings of one subject are
an untrusted one followed by a trusted one, and each subject is accepted at most
twice. -/
theorem accept_at_most_twice (env : Env) (r : enumSource) (cs : List AcceptCall) :
    (acceptAll env r cs).1.length = cs.length ∧
    (acceptedPrints env r cs).Nodup ∧
    (acceptedPrints env r cs).Pairwise
      (fun p q => p.1 = q.1 → p.2 = false ∧ q.2 = true) ∧
    ∀ s, ((acceptedPrints env r cs).filter (fun p => decide (p.1 = s))).length ≤ 2 := by
  have hpw := acceptedPrints_pairwise env cs r
  refine ⟨?_, ?_, hpw, ?_⟩
  · clear hpw
    induction cs generalizing r with
    | nil => rfl
    | cons c cs ih => simp [acceptAll, ih]
  · refine hpw.imp ?_
    intro p q h hpq
    have := h (congrArg Prod.fst hpq)
    rw [hpq] at this
    rw [this.1] at this
    exact Bool.noConfusion this.2
  · intro s
    apply pairwise_untrustedFirst_length s
    · exact hpw.sublist (List.filter_sublist _)
    · intro p hp
      simpa using (List.mem_filter.1 hp).2

/-! ## Service labels -/

theorem serviceLabel_of_label (name : String) (label : List Char)
    (hl : label ∈ splitDot name.data)
    (h : ToLower label = "_tcp" ∨ ToLower label = "_udp" ∨ ToLower label = "_tls") :
    serviceLabel name = true := by
  unfold serviceLabel
  rw [List.any_eq_true]
  refine ⟨label, hl, ?_⟩
  rcases h with h | h | h <;> simp [h]

/-- C4, the claim as stated fails: `newName` looks for the service labels in
the name that `SanitizeDNSRequest` leaves, not in the name of the request as
submitted. With a clean-up that drops the labels up to the last `*`, the
request for `_tcp.*.example.com`, which has the label `_tcp`, is queued as
`example.com`. -/
theorem newName_raw_label_refuted :
    ¬ ∀ (env : Env) (r : enumSource) (req : DNSRequest) (label : List Char),
      label ∈ splitDot req.Name.data →
      (ToLower label = "_tcp" ∨ ToLower label = "_udp" ∨ ToLower label = "_tls") →
      (newName env r req).queue = r.queue ∧ (newName env r req).dups = r.dups ∧
        (newName env r req).filter = r.filter := by
  intro h
  have h1 := (h stripEnv (newEnumSource 0) (nameRequest "_tcp.*.example.com" "scrape" "stub")
    "_tcp".data (by decide) (by decide)).1
  exact absurd h1 (by decide)

/-- C4 as amended: a name request whose name, as cleaned by
`SanitizeDNSRequest`, has a label that is `_tcp`, `_udp` or `_tls` up to case
leaves the whole input source unchanged, `queue`, `dups` and `filter`
included, for every tag and source. -/
theorem newName_service_label (env : Env) (r : enumSource) (req : DNSRequest)
    (label : List Char)
    (hl : label ∈ splitDot (env.SanitizeDNSRequest req).Name.data)
    (h : ToLower label = "_tcp" ∨ ToLower label = "_udp" ∨ ToLower label = "_tls") :
    newName env r req = r ∧ (newName env r req).queue = r.queue ∧
      (newName env r req).dups = r.dups ∧ (newName env r req).filter = r.filter := by
  have hs := serviceLabel_of_label _ label hl h
  have : newName env r req = r := by
    unfold newName
    simp only [hs, if_true]
    split_ifs <;> rfl
  simp [this]

theorem newName_service_label_witness :
    "_TCP".data ∈ splitDot
      (stripEnv.SanitizeDNSRequest
        (nameRequest "*.mail._TCP.example.com" "scrape" "stub")).Name.data ∧
    (ToLower "_TCP".data = "_tcp" ∨ ToLower "_TCP".data = "_udp" ∨
      ToLower "_TCP".data = "_tls") ∧
    (stripEnv.SanitizeDNSRequest
      (nameRequest "*.mail._TCP.example.com" "scrape" "stub")).Name = "mail._TCP.example.com" ∧
    newName stripEnv (newEnumSource 0) (nameRequest "*.mail._TCP.example.com" "scrape" "stub") =
      newEnumSource 0 :=
  ⟨by decide, by decide, by decide,
    (newName_service_label stripEnv (newEnumSource 0)
      (nameRequest "*.mail._TCP.example.com" "scrape" "stub") "_TCP".data
      (by decide) (by decide)).1⟩

/-! ## Request broker -/

theorem offer_idle {α : Type} (element : α) (b : Broker α) (name : String)
    (h1 : b.requestsMap name = []) (h2 : b.pending name = false) :
    offer element b name =
      { fireRequest b name element with pending := Function.update b.pending name true } := by
  unfold offer
  rw [if_pos]
  exact ⟨by simp [h1], h2⟩

theorem offer_busy {α : Type} (element : α) (b : Broker α) (name : String)
    (h : b.requestsMap name ≠ [] ∨ b.pending name = true) :
    offer element b name =
      { b with
        requestsMap :=
          Function.update b.requestsMap name (b.requestsMap name ++ [element]) } := by
  unfold offer
  rw [if_neg]
  rintro ⟨h1, h2⟩
  rcases h with h | h
  · exact h (List.length_eq_zero.1 h1)
  · rw [h2] at h
    exact Bool.noConfusion h

theorem offer_cases {α : Type} (b : Broker α) (name : String) :
    (b.requestsMap name = [] ∧ b.pending name = false) ∨
      (b.requestsMap name ≠ [] ∨ b.pending name = true) := by
  by_cases h1 : b.requestsMap name = []
  · cases h2 : b.pending name
    · exact Or.inl ⟨h1, rfl⟩
    · exact Or.inr (Or.inr rfl)
  · exact Or.inr (Or.inl h1)

theorem offer_inv {α : Type} (element : α) (b : Broker α) (name S : String)
    (h : b.Inv S) : (offer element b name).Inv S := by
  obtain ⟨ht, hf, hq⟩ := h
  rcases offer_cases b name with ⟨h1, h2⟩ | hbusy
  · rw [offer_idle element b name h1 h2]
    by_cases hS : S = name
    · subst hS
      refine ⟨fun _ => ?_, fun hp => ?_, fun _ => ?_⟩
      · simp [fireRequest, hf h2]
      · simp at hp
      · simp
    · refine ⟨fun hp => ?_, fun hp => ?_, fun hne => ?_⟩
      · simp only [fireRequest, Function.update_noteq hS] at hp ⊢
        exact ht hp
      · simp only [fireRequest, Function.update_noteq hS] at hp ⊢
        exact hf hp
      · simp only [fireRequest, Function.update_noteq hS] at hne ⊢
        exact hq hne
  · rw [offer_busy element b name hbusy]
    refine ⟨fun hp => ht hp, fun hp => hf hp, fun hne => ?_⟩
    by_cases hS : S = name
    · subst hS
      rcases hbusy with hb | hb
      · exact hq hb
      · exact hb
    · simp only [Function.update_noteq hS] at hne
      exact hq hne

theorem foldl_offer_inv {α : Type} (element : α) (S : String) (keys : List String) :
    ∀ b : Broker α, b.Inv S → (keys.foldl (offer element) b).Inv S := by
  induction keys with
  | nil => intro b h; exact h
  | cons k ks ih => intro b h; exact ih _ (offer_inv element b k S h)

theorem onFinished_inv {α : Type} (b : Broker α) (name S : String)
    (hin : 0 < b.inflight name) (h : b.Inv S) (hn : b.Inv name) :
    (onFinished b name).Inv S := by
  have hp : b.pending name = true := by
    cases hp : b.pending name
    · rw [hn.2.1 hp] at hin
      exact absurd hin (lt_irrefl 0)
    · rfl
  have h1 : b.inflight name = 1 := hn.1 hp
  obtain ⟨ht, hf, hq⟩ := h
  unfold onFinished
  by_cases hS : S = name
  · subst hS
    cases hb : b.requestsMap S with
    | nil =>
      refine ⟨fun hp => ?_, fun _ => ?_, fun hne => ?_⟩
      · simp at hp
      · simp [h1]
      · simp only at hne
        exact absurd hb hne
    | cons req rest =>
      refine ⟨fun _ => ?_, fun hp2 => ?_, fun _ => ?_⟩
      · simp [fireRequest, h1]
      · simp only [fireRequest] at hp2
        rw [hp] at hp2
        exact Bool.noConfusion hp2
      · simpa [fireRequest] using hp
  · cases hb : b.requestsMap name with
    | nil =>
      refine ⟨fun hp => ?_, fun hp => ?_, fun hne => ?_⟩
      · simp only [Function.update_noteq hS] at hp ⊢
        exact ht hp
      · simp only [Function.update_noteq hS] at hp ⊢
        exact hf hp
      · simp only [Function.update_noteq hS] at hne ⊢
        exact hq hne
    | cons req rest =>
      refine ⟨fun hp => ?_, fun hp => ?_, fun hne => ?_⟩
      · simp only [fireRequest, Function.update_noteq hS] at hp ⊢
        exact ht hp
      · simp only [fireRequest, Function.update_noteq hS] at hp ⊢
        exact hf hp
      · simp only [fireRequest, Function.update_noteq hS] at hne ⊢
        exact hq hne

theorem reachable_inv {α : Type} (srcs : List String) (b : Broker α)
    (hb : Broker.Reachable srcs b) : ∀ S, b.Inv S := by
  induction hb with
  | init => intro S; simp [Broker.Inv, Broker.init]
  | request b element _ ih =>
    intro S
    exact foldl_offer_inv element S _ _ (ih S)
  | finished b name _ hin ih =>
    intro S
    exact onFinished_inv b name S hin (ih S) (ih name)

/-- C5: in every state the broker loop reaches, a source has at most one
delivery in flight, is pending whenever a delivery to it is in flight, and is
pending whenever its backlog is not empty. -/
theorem broker_one_in_flight {α : Type} (srcs : List String) (b : Broker α)
    (S : String) (hb : Broker.Reachable srcs b) :
    b.inflight S ≤ 1 ∧ (0 < b.inflight S → b.pending S = true) ∧
      (b.requestsMap S ≠ [] → b.pending S = true) := by
  obtain ⟨ht, hf, hq⟩ := reachable_inv srcs b hb S
  cases hp : b.pending S
  · refine ⟨by rw [hf hp]; exact Nat.zero_le 1, fun h => ?_, fun hne => ?_⟩
    · rw [hf hp] at h
      exact absurd h (lt_irrefl 0)
    · rw [← hp]; exact hq hne
  · exact ⟨le_of_eq (ht hp), fun _ => rfl, fun _ => rfl⟩

theorem broker_one_in_flight_witness :
    Broker.Reachable ["crtsh", "fofa"]
      (onFinished (onRequest ["crtsh", "fofa"]
        (onRequest ["crtsh", "fofa"] (Broker.init Nat) 1) 2) "fofa") ∧
    (onFinished (onRequest ["crtsh", "fofa"]
      (onRequest ["crtsh", "fofa"] (Broker.init Nat) 1) 2) "fofa").inflight "fofa" ≤ 1 :=
  have hr : Broker.Reachable ["crtsh", "fofa"]
      (onFinished (onRequest ["crtsh", "fofa"]
        (onRequest ["crtsh", "fofa"] (Broker.init Nat) 1) 2) "fofa") :=
    Broker.Reachable.finished _ "fofa"
      (Broker.Reachable.request _ 2 (Broker.Reachable.request _ 1 Broker.Reachable.init))
      (by decide)
  ⟨hr, (broker_one_in_flight ["crtsh", "fofa"] _ "fofa" hr).1⟩

theorem offer_taken {α : Type} (element : α) (b : Broker α) (name : String) :
    (offer element b name).taken = b.taken := by
  rcases offer_cases b name with ⟨h1, h2⟩ | hbusy
  · rw [offer_idle element b name h1 h2]; rfl
  · rw [offer_busy element b name hbusy]

theorem offer_order_self {α : Type} (element : α) (b : Broker α) (name : String) :
    (offer element b name).started name ++ (offer element b name).requestsMap name =
      b.started name ++ b.requestsMap name ++ [element] := by
  rcases offer_cases b name with ⟨h1, h2⟩ | hbusy
  · rw [offer_idle element b name h1 h2]
    simp [fireRequest, h1]
  · rw [offer_busy element b name hbusy]
    simp

theorem offer_order_other {α : Type} (element : α) (b : Broker α) (name S : String)
    (hS : S ≠ name) :
    (offer element b name).started S = b.started S ∧
      (offer element b name).requestsMap S = b.requestsMap S := by
  rcases offer_cases b name with ⟨h1, h2⟩ | hbusy
  · rw [offer_idle element b name h1 h2]
    simp [fireRequest, Function.update_noteq hS]
  · rw [offer_busy element b name hbusy]
    simp [Function.update_noteq hS]

theorem foldl_offer_taken {α : Type} (element : α) (keys : List String) :
    ∀ b : Broker α, (keys.foldl (offer element) b).taken = b.taken := by
  induction keys with
  | nil => intro b; rfl
  | cons k ks ih => intro b; rw [List.foldl_cons, ih, offer_taken]

theorem foldl_offer_order_not_mem {α : Type} (element : α) (S : String)
    (keys : List String) (hS : S ∉ keys) :
    ∀ b : Broker α,
      (keys.foldl (offer element) b).started S = b.started S ∧
        (keys.foldl (offer element) b).requestsMap S = b.requestsMap S := by
  induction keys with
  | nil => intro b; exact ⟨rfl, rfl⟩
  | cons k ks ih =>
    intro b
    rw [List.mem_cons, not_or] at hS
    rw [List.foldl_cons]
    obtain ⟨h1, h2⟩ := ih hS.2 (offer element b k)
    obtain ⟨h3, h4⟩ := offer_order_other element b k S hS.1
    exact ⟨h1.trans h3, h2.trans h4⟩

theorem foldl_offer_order_mem {α : Type} (element : α) (S : String)
    (keys : List String) (hnd : keys.Nodup) (hS : S ∈ keys) :
    ∀ b : Broker α,
      (keys.foldl (offer element) b).started S ++
          (keys.foldl (offer element) b).requestsMap S =
        b.started S ++ b.requestsMap S ++ [element] := by
  induction keys with
  | nil => simp at hS
  | cons k ks ih =>
    intro b
    rw [List.nodup_cons] at hnd
    rw [List.foldl_cons]
    by_cases hk : S = k
    · subst hk
      obtain ⟨h1, h2⟩ := foldl_offer_order_not_mem element S ks hnd.1 (offer element b S)
      rw [h1, h2, offer_order_self]
    · have hmem : S ∈ ks := by
        rcases List.mem_cons.1 hS with h | h
        · exact absurd h hk
        · exact h
      obtain ⟨h3, h4⟩ := offer_order_other element b k S hk
      rw [ih hnd.2 hmem, h3, h4]

theorem onFinished_taken {α : Type} (b : Broker α) (name : String) :
    (onFinished b name).taken = b.taken := by
  unfold onFinished
  cases b.requestsMap name <;> rfl

theorem onFinished_order {α : Type} (b : Broker α) (name S : String) :
    (onFinished b name).started S ++ (onFinished b name).requestsMap S =
      b.started S ++ b.requestsMap S := by
  unfold onFinished
  by_cases hS : S = name
  · subst hS
    cases hb : b.requestsMap S with
    | nil => simp [hb]
    | cons req rest => simp [fireRequest]
  · cases hb : b.requestsMap name with
    | nil => simp
    | cons req rest => simp [fireRequest, Function.update_noteq hS]

/-- C6: in every state the broker loop reaches, for a registered source the
requests whose delivery was started, in start order, followed by the source's
backlog are the requests taken from the request queue, in order; the started
deliveries are a prefix of the submitted requests. -/
theorem broker_fifo {α : Type} (srcs : List String) (b : Broker α) (S : String)
    (hS : S ∈ srcs) (hb : Broker.Reachable srcs b) :
    b.started S ++ b.requestsMap S = b.taken ∧ b.started S <+: b.taken := by
  have key : b.started S ++ b.requestsMap S = b.taken := by
    induction hb with
    | init => simp [Broker.init]
    | request b element _ ih =>
      unfold onRequest
      rw [foldl_offer_taken,
        foldl_offer_order_mem element S (nameToSrcKeys srcs) (List.nodup_dedup srcs)
          (List.mem_dedup.2 hS)]
      simp only
      rw [ih]
    | finished b name _ _ ih =>
      rw [onFinished_taken, onFinished_order, ih]
  exact ⟨key, ⟨b.requestsMap S, key⟩⟩

theorem broker_fifo_witness :
    "fofa" ∈ ["crtsh", "fofa"] ∧
    Broker.Reachable ["crtsh", "fofa"]
      (onRequest ["crtsh", "fofa"] (onRequest ["crtsh", "fofa"]
        (onRequest ["crtsh", "fofa"] (Broker.init Nat) 1) 2) 3) ∧
    (onRequest ["crtsh", "fofa"] (onRequest ["crtsh", "fofa"]
      (onRequest ["crtsh", "fofa"] (Broker.init Nat) 1) 2) 3).started "fofa" ++
      (onRequest ["crtsh", "fofa"] (onRequest ["crtsh", "fofa"]
        (onRequest ["crtsh", "fofa"] (Broker.init Nat) 1) 2) 3).requestsMap "fofa" =
      [1, 2, 3] :=
  have hr : Broker.Reachable ["crtsh", "fofa"]
      (onRequest ["crtsh", "fofa"] (onRequest ["crtsh", "fofa"]
        (onRequest ["crtsh", "fofa"] (Broker.init Nat) 1) 2) 3) :=
    Broker.Reachable.request _ 3
      (Broker.Reachable.request _ 2 (Broker.Reachable.request _ 1 Broker.Reachable.init))
  ⟨by decide, hr, (broker_fifo ["crtsh", "fofa"] _ "fofa" (by decide) hr).1.trans (by decide)⟩

/-! ## Pacing -/

theorem releaseLoop_release (n : Nat) :
    ∀ r : enumSource,
      releaseLoop n r = { r with release := max r.release (min (r.release + n) r.max) } := by
  induction n with
  | zero =>
    intro r
    simp only [releaseLoop, Nat.add_zero]
    rw [max_eq_left (min_le_left _ _)]
  | succ n ih =>
    intro r
    simp only [releaseLoop]
    rw [ih]
    by_cases h : r.release < r.max
    · rw [if_pos h]
      simp only
      congr 1
      omega
    · rw [if_neg h]
      congr 1
      omega

theorem fillQueue_eq (r : enumSource) :
    fillQueue r =
      { r with
        release :=
          if r.queue.length < r.max then max r.release (r.max - r.queue.length)
          else r.release } := by
  unfold fillQueue releaseOutput
  simp only [gt_iff_lt]
  by_cases hq : r.queue.length < r.max
  · rw [if_pos (by omega), if_pos hq]
    by_cases hf : (0 : Int) < (r.max : Int) - (r.queue.length : Int) - (r.release : Int)
    · rw [if_pos hf, releaseLoop_release]
      congr 1
      omega
    · rw [if_neg hf]
      have : max r.release (r.max - r.queue.length) = r.release := by omega
      rw [this]
  · rw [if_neg (by omega), if_neg hq]

/-- C10: `fillQueue` changes only the token count: with `q` queued items and
`k ≤ max` tokens it leaves `max k (max − q)` tokens when `q < max` and `k`
otherwise; it removes no token, stays within the capacity `max`, and when
`q < max` leaves tokens and queued items adding up to at least `max`. -/
theorem fillQueue_tokens (r : enumSource) (hk : r.release ≤ r.max) :
    fillQueue r =
      { r with
        release :=
          if r.queue.length < r.max then max r.release (r.max - r.queue.length)
          else r.release } ∧
    r.release ≤ (fillQueue r).release ∧ (fillQueue r).release ≤ r.max ∧
    (r.queue.length < r.max → r.max ≤ (fillQueue r).release + r.queue.length) := by
  refine ⟨fillQueue_eq r, ?_, ?_, ?_⟩
  · rw [fillQueue_eq]
    simp only
    split_ifs <;> omega
  · rw [fillQueue_eq]
    simp only
    split_ifs <;> omega
  · intro hq
    rw [fillQueue_eq]
    simp only
    rw [if_pos hq]
    omega

theorem fillQueue_tokens_witness :
    ({ newEnumSource 0 with
        queue := [Data.dns (nameRequest "a.example.com" "dns" "DNS")]
        release := 3 } : enumSource).release ≤
      ({ newEnumSource 0 with
        queue := [Data.dns (nameRequest "a.example.com" "dns" "DNS")]
        release := 3 } : enumSource).max ∧
    (fillQueue { newEnumSource 0 with
        queue := [Data.dns (nameRequest "a.example.com" "dns" "DNS")]
        release := 3 }).release = 999 :=
  ⟨by decide,
    (congrArg enumSource.release (fillQueue_tokens { newEnumSource 0 with
        queue := [Data.dns (nameRequest "a.example.com" "dns" "DNS")]
        release := 3 } (by decide)).1).trans (by decide)⟩

/-! ## Sweep generator -/

theorem sweepLoop_spec (ctxDone : Nat → Bool) (req : AddrRequest) (ips : List String) :
    ∀ (i count : Nat) (r : enumSource),
      ∃ added : List AddrRequest,
        (sweepLoop ctxDone req ips i count r).2 =
          { r with
            queue := r.queue ++ added.map Data.addr
            sweepFilter := r.sweepFilter ++ added.map AddrRequest.Address } ∧
        (sweepLoop ctxDone req ips i count r).1 = count + added.length ∧
        (r.sweepFilter ++ added.map AddrRequest.Address).Nodup = r.sweepFilter.Nodup ∧
        ∀ x ∈ added, x.Address ∈ ips := by
  induction ips with
  | nil =>
    intro i count r
    exact ⟨[], by simp [sweepLoop], by simp [sweepLoop], by simp, by simp⟩
  | cons a ips ih =>
    intro i count r
    unfold sweepLoop
    by_cases hd : ctxDone i = true
    · rw [if_pos hd]
      exact ⟨[], by simp, by simp, by simp, by simp⟩
    · rw [if_neg hd]
      by_cases hm : a ∈ r.sweepFilter
      · rw [if_pos hm]
        obtain ⟨added, h1, h2, h3, h4⟩ := ih (i + 1) count r
        exact ⟨added, h1, h2, h3, fun x hx => List.mem_cons_of_mem _ (h4 x hx)⟩
      · rw [if_neg hm]
        obtain ⟨added, h1, h2, h3, h4⟩ := ih (i + 1) (count + 1)
          { r with
            sweepFilter := r.sweepFilter ++ [a]
            queue := r.queue ++ [Data.addr (sweepRequest a req)] }
        refine ⟨sweepRequest a req :: added, ?_, ?_, ?_, ?_⟩
        · rw [h1]
          simp [sweepRequest]
        · rw [h2]
          simp only [List.length_cons]
          omega
        · simp only at h3
          simp only [List.map_cons, sweepRequest]
          rw [show r.sweepFilter ++ a :: List.map AddrRequest.Address added =
            r.sweepFilter ++ [a] ++ List.map AddrRequest.Address added by simp, h3]
          apply propext
          rw [List.nodup_append]
          simp [hm]
        · intro x hx
          rcases List.mem_cons.1 hx with rfl | hx
          · simp [sweepRequest]
          · exact List.mem_cons_of_mem _ (h4 x hx)

theorem sweepAddrs_spec (active : Bool) (r : enumSource) (c : SweepCall) :
    ∃ added : List AddrRequest,
      (sweepAddrs active r c).2 =
        { r with
          queue := r.queue ++ added.map Data.addr
          sweepFilter := r.sweepFilter ++ added.map AddrRequest.Address } ∧
      (sweepAddrs active r c).1 = added.length ∧
      (r.sweepFilter ++ added.map AddrRequest.Address).Nodup = r.sweepFilter.Nodup := by
  obtain ⟨added, h1, h2, h3, -⟩ :=
    sweepLoop_spec c.ctxDone c.req
      (c.CIDRSubset (if active then activeSweepSize else defaultSweepSize)) 0 0 r
  exact ⟨added, h1, by simpa using h2, h3⟩

theorem sweepAll_spec (active : Bool) (cs : List SweepCall) :
    ∀ r : enumSource,
      ∃ added : List (List AddrRequest),
        (sweepAll active r cs).2 =
          { r with
            queue := r.queue ++ added.flatten.map Data.addr
            sweepFilter := r.sweepFilter ++ added.flatten.map AddrRequest.Address } ∧
        (sweepAll active r cs).1 = added.map List.length ∧
        (r.sweepFilter ++ added.flatten.map AddrRequest.Address).Nodup = r.sweepFilter.Nodup := by
  induction cs with
  | nil =>
    intro r
    exact ⟨[], by simp [sweepAll], by simp [sweepAll], by simp⟩
  | cons c cs ih =>
    intro r
    obtain ⟨a1, h1, h2, h3⟩ := sweepAddrs_spec active r c
    obtain ⟨as, g1, g2, g3⟩ := ih (sweepAddrs active r c).2
    refine ⟨a1 :: as, ?_, ?_, ?_⟩
    · simp only [sweepAll]
      rw [g1, h1]
      simp
    · simp only [sweepAll]
      rw [g2, h2]
      simp
    · rw [h1] at g3
      simp only at g3
      rw [← h3, ← g3]
      simp

/-- C8: a call of `sweepAddrs` appends address requests to `queue`, as many as
the count it returns; over any sequence of calls, from an empty `sweepFilter`,
the calls append in turn as many requests as their counts say, and the
addresses of all appended requests are pairwise distinct. -/
theorem sweepAddrs_distinct (active : Bool) (r : enumSource) (cs : List SweepCall)
    (hr : r.sweepFilter = []) :
    (∀ (r1 : enumSource) (c : SweepCall), ∃ added : List AddrRequest,
      (sweepAddrs active r1 c).2.queue = r1.queue ++ added.map Data.addr ∧
        (sweepAddrs active r1 c).1 = added.length) ∧
    ∃ added : List (List AddrRequest),
      (sweepAll active r cs).2.queue = r.queue ++ added.flatten.map Data.addr ∧
        (sweepAll active r cs).1 = added.map List.length ∧
        (added.flatten.map AddrRequest.Address).Nodup := by
  constructor
  · intro r1 c
    obtain ⟨added, h1, h2, -⟩ := sweepAddrs_spec active r1 c
    exact ⟨added, by rw [h1], h2⟩
  · obtain ⟨added, h1, h2, h3⟩ := sweepAll_spec active cs r
    refine ⟨added, by rw [h1], h2, ?_⟩
    rw [hr] at h3
    simpa using h3

theorem sweepAddrs_distinct_witness :
    (newEnumSource 0).sweepFilter = [] ∧
    (sweepAll false (newEnumSource 0) sweepPair).1 = [3, 1] ∧
    ∃ added : List (List AddrRequest),
      (sweepAll false (newEnumSource 0) sweepPair).2.queue =
          (newEnumSource 0).queue ++ added.flatten.map Data.addr ∧
        (sweepAll false (newEnumSource 0) sweepPair).1 = added.map List.length ∧
        (added.flatten.map AddrRequest.Address).Nodup :=
  ⟨rfl, by decide, (sweepAddrs_distinct false (newEnumSource 0) sweepPair rfl).2⟩

/-! ## Duplicate tracker -/

/-- C9: on the sequence number 2010 with two pending entries, both with
`Min ≤ 2010`, the first entry reaches 0, is fired and removed, and the second,
moved into its place, is left with its `Countdown` of 4: it is not decremented. -/
theorem processInputSig_skips_moved_entry :
    processInputSig 2010 pendingPair =
      ([{ Name := "b.example.com", Source := "fofa", Tag := "api", Min := 13, Countdown := 4 }],
        [{ Name := "a.example.com", Source := "crtsh", Tag := "cert", Min := 10,
           Countdown := 0 }]) ∧
    (∀ a ∈ pendingPair, a.Min ≤ 2010) ∧
    ¬ ∀ a ∈ pendingPair, ∀ b ∈ (processInputSig 2010 pendingPair).1,
        a.Name = b.Name → b.Countdown = a.Countdown - 1 := by
  refine ⟨by decide, by decide, ?_⟩
  intro h
  have := h { Name := "b.example.com", Source := "fofa", Tag := "api", Min := 13,
              Countdown := 4 } (by decide)
    { Name := "b.example.com", Source := "fofa", Tag := "api", Min := 13, Countdown := 4 }
    (by decide) rfl
  exact absurd this (by decide)

/-! ## Input source as a transition system -/

theorem accept_queue (env : Env) (r : enumSource) (s tag source : String) (name : Bool) :
    (accept env r s tag source name).2.queue = r.queue ∧
      (accept env r s tag source name).2.release = r.release ∧
      (accept env r s tag source name).2.max = r.max := by
  rw [accept_snd]
  cases (accept env r s tag source name).1 <;> cases name <;> simp

theorem newName_queue (env : Env) (r : enumSource) (req : DNSRequest) :
    (newName env r req).release = r.release ∧ (newName env r req).max = r.max ∧
      r.queue.length ≤ (newName env r req).queue.length ∧
      (newName env r req).queue.length ≤ r.queue.length + 1 := by
  unfold newName
  obtain ⟨h1, h2, h3⟩ := accept_queue env r (env.SanitizeDNSRequest req).Name
    (env.SanitizeDNSRequest req).Tag (env.SanitizeDNSRequest req).Source true
  by_cases c1 : r.done = true
  · simp [c1]
  by_cases c2 : env.ValidDNS req = true
  swap
  · simp [c1, c2]
  by_cases c3 :
      env.FindString (env.SanitizeDNSRequest req).Name = (env.SanitizeDNSRequest req).Name
  swap
  · simp [c1, c2, c3]
  by_cases c4 : serviceLabel (env.SanitizeDNSRequest req).Name = true
  · simp [c1, c2, c3, c4]
  cases c5 : (accept env r (env.SanitizeDNSRequest req).Name
      (env.SanitizeDNSRequest req).Tag (env.SanitizeDNSRequest req).Source true).1
  · simp [c1, c2, c3, c4, c5, h1, h2, h3]
  · simp [c1, c2, c3, c4, c5, h1, h2, h3]

theorem newAddr_queue (env : Env) (r : enumSource) (req : AddrRequest) :
    (newAddr env r req).release = r.release ∧ (newAddr env r req).max = r.max ∧
      (newAddr env r req).queue.length ≤ r.queue.length + 1 := by
  unfold newAddr
  obtain ⟨h1, h2, h3⟩ := accept_queue env r req.Address req.Tag req.Source false
  by_cases c1 : r.done = true
  · simp [c1]
  by_cases c2 : (!env.ValidAddr req || !req.InScope) = true
  · simp [c1, c2]
  cases c3 : (accept env r req.Address req.Tag req.Source false).1
  · simp [c1, c2, c3, h1, h2, h3]
  · cases c4 : env.IsReservedAddress req.Address <;> simp [c1, c2, c3, c4, h1, h2, h3]

theorem Data_queue (r : enumSource) :
    r.Data.2.2.release = r.release ∧ r.Data.2.2.max = r.max ∧
      r.Data.2.2.queue.length ≤ r.queue.length := by
  unfold enumSource.Data incrementCount
  cases hq : r.queue with
  | nil => simp [hq]
  | cons x rest =>
    simp only
    split_ifs <;> simp

theorem inputStep_bounded (env : Env) (active : Bool) (watchers : Nat) (qps : Int)
    (s t : InputState) (ev : InputEvent) (hs : s.Bounded watchers qps)
    (hst : inputStep env active watchers s ev = some t) : t.Bounded watchers qps := by
  obtain ⟨hmax, hk, hw, hb⟩ := hs
  unfold InputState.Bounded
  cases ev with
  | seed req =>
    simp only [inputStep, Option.some.injEq] at hst
    subst hst
    obtain ⟨h1, h2, h3, h4⟩ := newName_queue env s.src req
    simp only
    rw [h1, h2]
    exact ⟨hmax, hk, hw, by omega⟩
  | watchTake =>
    simp only [inputStep] at hst
    split_ifs at hst with hc
    simp only [Option.some.injEq] at hst
    subst hst
    simp only
    exact ⟨hmax, by omega, by omega, by omega⟩
  | watchName req =>
    simp only [inputStep] at hst
    split_ifs at hst with hc
    simp only [Option.some.injEq] at hst
    subst hst
    obtain ⟨h1, h2, h3, h4⟩ := newName_queue env s.src req
    simp only
    rw [h1, h2]
    exact ⟨hmax, hk, by omega, by omega⟩
  | watchAddr req =>
    simp only [inputStep] at hst
    split_ifs at hst with hc
    simp only [Option.some.injEq] at hst
    subst hst
    obtain ⟨h1, h2, h4⟩ := newAddr_queue env s.src req
    simp only
    rw [h1, h2]
    exact ⟨hmax, hk, by omega, by omega⟩
  | watchOther =>
    simp only [inputStep] at hst
    split_ifs at hst with hc
    simp only [Option.some.injEq] at hst
    subst hst
    simp only
    exact ⟨hmax, hk, by omega, by omega⟩
  | fillRead =>
    simp only [inputStep] at hst
    cases hf : s.fill with
    | idle =>
      rw [hf] at hst hb
      simp only [Option.some.injEq] at hst
      subst hst
      simp only [pendingFill] at hb ⊢
      refine ⟨hmax, hk, hw, ?_⟩
      split_ifs with hu
      · simp only [pendingFill]
        omega
      · simp only [pendingFill]
        omega
    | unfilled u => rw [hf] at hst; simp at hst
    | sending n => rw [hf] at hst; simp at hst
  | fillLen =>
    simp only [inputStep] at hst
    cases hf : s.fill with
    | idle => rw [hf] at hst; simp at hst
    | unfilled u =>
      rw [hf] at hst hb
      simp only [pendingFill] at hb
      simp only at hst
      split_ifs at hst with hu
      · simp only [Option.some.injEq] at hst
        subst hst
        simp only [pendingFill]
        exact ⟨hmax, hk, hw, by omega⟩
      · simp only [Option.some.injEq] at hst
        subst hst
        simp only [pendingFill]
        exact ⟨hmax, hk, hw, by omega⟩
    | sending n => rw [hf] at hst; simp at hst
  | fillSend =>
    simp only [inputStep] at hst
    cases hf : s.fill with
    | idle => rw [hf] at hst; simp at hst
    | unfilled u => rw [hf] at hst; simp at hst
    | sending n =>
      rw [hf] at hst hb
      simp only [pendingFill] at hb
      cases n with
      | zero =>
        simp only [Option.some.injEq] at hst
        subst hst
        simp only [pendingFill]
        exact ⟨hmax, hk, hw, by omega⟩
      | succ n =>
        simp only [Option.some.injEq] at hst
        subst hst
        rw [releaseLoop_release]
        simp only [pendingFill]
        exact ⟨hmax, by omega, hw, by omega⟩
  | sweepCheck =>
    simp only [inputStep] at hst
    cases hp : s.sweep with
    | idle =>
      rw [hp] at hst
      simp only at hst
      split_ifs at hst
      · simp only [Option.some.injEq] at hst
        subst hst
        exact ⟨hmax, hk, hw, hb⟩
      · simp only [Option.some.injEq] at hst
        subst hst
        exact ⟨hmax, hk, hw, hb⟩
    | checked => rw [hp] at hst; simp at hst
    | running req ips round => rw [hp] at hst; simp at hst
  | sweepPop subset =>
    simp only [inputStep] at hst
    cases hp : s.sweep with
    | idle => rw [hp] at hst; simp at hst
    | checked =>
      rw [hp] at hst
      simp only at hst
      cases hsw : s.src.sweeps with
      | nil =>
        rw [hsw] at hst
        simp only [Option.some.injEq] at hst
        subst hst
        exact ⟨hmax, hk, hw, hb⟩
      | cons e rest =>
        rw [hsw] at hst
        simp only [Option.some.injEq] at hst
        subst hst
        exact ⟨hmax, hk, hw, hb⟩
    | running req ips round => rw [hp] at hst; simp at hst
  | sweepRound ctxDone =>
    simp only [inputStep] at hst
    cases hp : s.sweep with
    | idle => rw [hp] at hst; simp at hst
    | checked => rw [hp] at hst; simp at hst
    | running req ips round =>
      rw [hp] at hst
      cases ips with
      | nil =>
        simp only [Option.some.injEq] at hst
        subst hst
        exact ⟨hmax, hk, hw, hb⟩
      | cons a ips =>
        simp only [Option.some.injEq] at hst
        subst hst
        obtain ⟨added, h1, h2, -, -⟩ :=
          sweepLoop_spec (fun _ => ctxDone) req [a] round 0 s.src
        simp only
        rw [h2, h1]
        simp only [List.length_append, List.length_map]
        exact ⟨hmax, hk, hw, by omega⟩
  | take =>
    simp only [inputStep, Option.some.injEq] at hst
    subst hst
    obtain ⟨h1, h2, h3⟩ := Data_queue s.src
    simp only
    rw [h1, h2]
    exact ⟨hmax, hk, hw, by omega⟩
  | stop =>
    simp only [inputStep, Option.some.injEq] at hst
    subst hst
    simp only [List.length_nil]
    exact ⟨hmax, hk, hw, by omega⟩

theorem init_bounded (watchers : Nat) (qps : Int) :
    (InputState.init qps).Bounded watchers qps := by
  unfold InputState.Bounded InputState.init newEnumSource clampQPS
  simp only [List.length_nil, pendingFill]
  refine ⟨?_, le_refl _, Nat.zero_le _, by omega⟩
  split_ifs <;> congr 1 <;> omega

theorem reachable_bounded (env : Env) (active : Bool) (watchers : Nat) (qps : Int)
    (s : InputState) (h : InputState.Reachable env active watchers qps s) :
    s.Bounded watchers qps := by
  induction h with
  | init => exact init_bounded watchers qps
  | step s t ev _ hst ih => exact inputStep_bounded env active watchers qps s t ev ih hst

theorem reachable_run (env : Env) (active : Bool) (watchers : Nat) (qps : Int)
    (evs : List InputEvent) :
    ∀ s t : InputState, InputState.Reachable env active watchers qps s →
      runEvents env active watchers s evs = some t →
      InputState.Reachable env active watchers qps t := by
  induction evs with
  | nil =>
    intro s t hs h
    simp only [runEvents, Option.some.injEq] at h
    exact h ▸ hs
  | cons ev evs ih =>
    intro s t hs h
    simp only [runEvents] at h
    cases hstep : inputStep env active watchers s ev with
    | none => rw [hstep] at h; simp at h
    | some u =>
      rw [hstep] at h
      exact ih u t (InputState.Reachable.step s u ev hs hstep) h

theorem splitDot_replicate_a (k : Nat) :
    splitDot (List.replicate k 'a') = [List.replicate k 'a'] := by
  induction k with
  | zero => rfl
  | succ k ih =>
    rw [List.replicate_succ, splitDot, if_neg (by decide), ih]

theorem seedName_serviceLabel (n : Nat) : serviceLabel (seedName n).Name = false := by
  have hne : ∀ t : List Char, t.head? = some '_' →
      (ToLower (List.replicate (n + 1) 'a') == String.mk t) = false := by
    intro t ht
    rw [beq_eq_false_iff_ne]
    intro h
    have h1 := congrArg String.data h
    simp only [ToLower, List.map_replicate, List.replicate_succ] at h1
    rw [← h1] at ht
    simp at ht
  unfold serviceLabel seedName nameRequest
  simp only [splitDot_replicate_a, List.any_cons, List.any_nil, Bool.or_false]
  rw [show ("_tcp" : String) = String.mk ['_', 't', 'c', 'p'] from rfl,
    show ("_udp" : String) = String.mk ['_', 'u', 'd', 'p'] from rfl,
    show ("_tls" : String) = String.mk ['_', 't', 'l', 's'] from rfl,
    hne ['_', 't', 'c', 'p'] rfl, hne ['_', 'u', 'd', 'p'] rfl, hne ['_', 't', 'l', 's'] rfl]
  rfl

theorem seedName_inj (i n : Nat) (h : (seedName i).Name = (seedName n).Name) : i = n := by
  have h1 := congrArg (fun x => x.data.length) h
  simpa [seedName, nameRequest] using h1

theorem seedName_fresh (n : Nat) :
    (seedName n).Name ++ FormatBool true ∉ (seededState n).src.filter := by
  intro h
  simp only [seededState, List.mem_map, List.mem_range] at h
  obtain ⟨i, hi, heq⟩ := h
  have := seedName_inj i n ((key_eq_iff _ _ _ _).1 heq).1
  omega

theorem seedName_valid (n : Nat) : ((seedName n).Name != "") = true := by
  rw [bne_iff_ne]
  intro h
  have h1 := congrArg (fun x => x.data.length) h
  simp [seedName, nameRequest] at h1

theorem fillSend_run (env : Env) (active : Bool) (watchers : Nat) (left : Nat) :
    ∀ s : InputState, s.fill = .sending left →
      runEvents env active watchers s (List.replicate (left + 1) InputEvent.fillSend) =
        some { s with src := releaseLoop left s.src, fill := .idle, passes := s.passes + 1 } := by
  induction left with
  | zero =>
    intro s hs
    simp [runEvents, inputStep, hs, releaseLoop]
  | succ left ih =>
    intro s hs
    rw [List.replicate_succ, runEvents]
    simp only [inputStep, hs]
    rw [ih _ rfl]
    rfl

/-- The steps of `fillQueue`, run with nothing in between, do what the call
does as a whole. -/
theorem fillQueue_run (env : Env) (active : Bool) (watchers : Nat) (s : InputState)
    (hs : s.fill = .idle) :
    ∃ (evs : List InputEvent) (t : InputState),
      runEvents env active watchers s evs = some t ∧ t.src = fillQueue s.src ∧
        t.fill = .idle := by
  by_cases hu : (s.src.max : Int) - (s.src.queue.length : Int) > 0
  · by_cases hf : (s.src.max : Int) - (s.src.queue.length : Int) - (s.src.release : Int) > 0
    · refine ⟨InputEvent.fillRead :: InputEvent.fillLen ::
        List.replicate (((s.src.max : Int) - (s.src.queue.length : Int) -
          (s.src.release : Int)).toNat + 1) InputEvent.fillSend,
        { s with
          src := releaseLoop ((s.src.max : Int) - (s.src.queue.length : Int) -
            (s.src.release : Int)).toNat s.src
          fill := .idle
          passes := s.passes + 1 }, ?_, ?_, ?_⟩
      · rw [runEvents]
        simp only [inputStep, hs, if_pos hu]
        rw [runEvents]
        simp only [inputStep, if_pos hf]
        exact fillSend_run env active watchers _ _ rfl
      · simp only [fillQueue, releaseOutput, if_pos hu, if_pos hf]
      · rfl
    · refine ⟨[InputEvent.fillRead, InputEvent.fillLen],
        { s with fill := .idle, passes := s.passes + 1 }, ?_, ?_, ?_⟩
      · rw [runEvents]
        simp only [inputStep, hs, if_pos hu]
        rw [runEvents]
        simp only [inputStep, if_neg hf]
        rfl
      · simp only [fillQueue, if_pos hu, if_neg hf]
      · rfl
  · refine ⟨[InputEvent.fillRead], { s with fill := .idle }, ?_, ?_, ?_⟩
    · rw [runEvents]
      simp only [inputStep, hs, if_neg hu]
      rfl
    · simp only [fillQueue, if_neg hu]
    · rfl

theorem seeded_step (watchers n : Nat) :
    inputStep stubEnv false watchers (seededState n) (InputEvent.seed (seedName n)) =
      some (seededState (n + 1)) := by
  have hacc : (accept stubEnv (seededState n).src (seedName n).Name (seedName n).Tag
      (seedName n).Source true).1 = true := by
    rw [accept_fst]
    have ht : stubEnv.TrustedTag (seedName n).Tag = true := by
      simp [stubEnv, seedName, nameRequest]
    rw [ht]
    simpa using seedName_fresh n
  have hsnd := accept_snd stubEnv (seededState n).src (seedName n).Name (seedName n).Tag
    (seedName n).Source true
  rw [hacc] at hsnd
  have ht : stubEnv.TrustedTag (seedName n).Tag = true := by
    simp [stubEnv, seedName, nameRequest]
  rw [ht] at hsnd
  simp only [if_true] at hsnd
  have hnew : newName stubEnv (seededState n).src (seedName n) = (seededState (n + 1)).src := by
    unfold newName
    have hd : (seededState n).src.done = false := rfl
    have hv : stubEnv.ValidDNS (seedName n) = true := seedName_valid n
    have hsan : stubEnv.SanitizeDNSRequest (seedName n) = seedName n := rfl
    have hfind : stubEnv.FindString (seedName n).Name = (seedName n).Name := rfl
    simp only [hd, hv, hsan, hfind, seedName_serviceLabel, hacc, hsnd, bne_self_eq_false,
      Bool.not_true, Bool.false_eq_true, if_false, if_true]
    simp [seededState, newEnumSource, List.range_succ]
  simp only [inputStep, hnew]
  simp [seededState]

theorem seeded_reachable (watchers n : Nat) :
    InputState.Reachable stubEnv false watchers 0 (seededState n) := by
  induction n with
  | zero => exact InputState.Reachable.init
  | succ n ih => exact InputState.Reachable.step _ _ _ ih (seeded_step watchers n)

/-- C7, the claim as stated fails: with a resolver rate of 0, so `max = 1000`,
the input source reaches a state with 1001 queued requests, by 1001 calls of
`newName` that take no token. -/
theorem queue_bound_refuted :
    ¬ ∀ (env : Env) (active : Bool) (watchers : Nat) (qps : Int) (s : InputState),
      InputState.Reachable env active watchers qps s → s.src.queue.length ≤ s.src.max := by
  intro h
  have h1 := h stubEnv false 0 0 (seededState 1001) (seeded_reachable 0 1001)
  simp [seededState, newEnumSource, clampQPS] at h1

/-- C7 as amended: with the operations taken one access to `queue` or `release`
at a time, in every state the input source reaches `max` is the resolver rate
raised to at least 1000, `release` holds at most `max` tokens, the watchers
hold at most one token each, and queued requests, tokens and held tokens
together are at most twice `max` plus the number of watchers plus the requests
appended by token-free `newName` calls and by `sweepAddrs`. -/
theorem queue_bound_amended (env : Env) (active : Bool) (watchers : Nat) (qps : Int)
    (s : InputState) (h : InputState.Reachable env active watchers qps s) :
    s.src.max = (max qps 1000).toNat ∧ s.src.release ≤ s.src.max ∧ s.holding ≤ watchers ∧
    s.src.queue.length + s.src.release + s.holding ≤
      2 * s.src.max + watchers + s.seeded + s.swept ∧
    (s.seeded = 0 → s.swept = 0 → s.src.queue.length ≤ 2 * s.src.max + watchers) := by
  obtain ⟨h1, h2, h3, h4⟩ := reachable_bounded env active watchers qps s h
  exact ⟨h1, h2, h3, by omega, fun h5 h6 => by omega⟩

theorem queue_bound_amended_witness :
    InputState.Reachable stubEnv false 1 0 raceState ∧
    raceState.src.queue.length + raceState.src.release = 1001 ∧
    raceState.src.queue.length + raceState.src.release + raceState.holding ≤
      2 * raceState.src.max + 1 + raceState.seeded + raceState.swept :=
  have hr : InputState.Reachable stubEnv false 1 0 raceState :=
    reachable_run stubEnv false 1 0 raceEvents (InputState.init 0) raceState
      InputState.Reachable.init (by decide)
  ⟨hr, by decide, (queue_bound_amended stubEnv false 1 0 raceState hr).2.2.2.1⟩

/-! ## Selecting data sources -/

theorem mem_stringsetInsert (set : List String) (element x : String) :
    x ∈ stringsetInsert set element ↔ x ∈ set ∨ x = element := by
  unfold stringsetInsert
  by_cases h : element ∈ set
  · rw [if_pos h]
    constructor
    · exact Or.inl
    · rintro (h1 | rfl)
      · exact h1
      · exact h
  · rw [if_neg h]
    simp

theorem mem_stringsetInsertMany (elements : List String) :
    ∀ (set : List String) (x : String),
      x ∈ stringsetInsertMany set elements ↔ x ∈ set ∨ x ∈ elements := by
  induction elements with
  | nil => intro set x; simp [stringsetInsertMany]
  | cons e es ih =>
    intro set x
    have := ih (stringsetInsert set e) x
    unfold stringsetInsertMany at this ⊢
    rw [List.foldl_cons, this, mem_stringsetInsert]
    simp only [List.mem_cons]
    tauto

theorem mem_available (avail : List Service) :
    ∀ (set : List String) (x : String),
      x ∈ avail.foldl (fun set src => stringsetInsert set src.Name) set ↔
        x ∈ set ∨ ∃ src ∈ avail, src.Name = x := by
  induction avail with
  | nil => intro set x; simp
  | cons a as ih =>
    intro set x
    rw [List.foldl_cons, ih, mem_stringsetInsert]
    simp only [List.mem_cons, exists_eq_or_imp]
    constructor
    · rintro ((h | h) | h)
      · exact Or.inl h
      · exact Or.inr (Or.inl h.symm)
      · exact Or.inr (Or.inr h)
    · rintro (h | h | h)
      · exact Or.inl (Or.inl h)
      · exact Or.inl (Or.inr h.symm)
      · exact Or.inr h

theorem specified_length_pos (sources : List String) :
    0 < (stringsetInsertMany [] sources).length ↔ sources ≠ [] := by
  rw [List.length_pos, ne_eq, ne_eq, List.eq_nil_iff_forall_not_mem,
    List.eq_nil_iff_forall_not_mem]
  simp only [mem_stringsetInsertMany, List.not_mem_nil, false_or]

/-- C11: `SelectedDataSources` returns, up to order, the sources of `avail`
whose name is in `SourceFilter.Sources` when that list is not empty and
`Include` is set, and those whose name is not in it otherwise; the result is
in ascending order of name and holds sources of `avail` only. -/
theorem SelectedDataSources_spec (cfg : SourceFilter) (avail : List Service) :
    (SelectedDataSources cfg avail).Perm
      (avail.filter fun src =>
        if cfg.Sources ≠ [] ∧ cfg.Include = true then decide (src.Name ∈ cfg.Sources)
        else decide (src.Name ∉ cfg.Sources)) ∧
    (SelectedDataSources cfg avail).Sorted (fun a b => a.Name ≤ b.Name) ∧
    (∀ src ∈ SelectedDataSources cfg avail, src ∈ avail) ∧
    (cfg.Sources = [] → (SelectedDataSources cfg avail).Perm avail) := by
  have hfilter : (avail.filter fun src =>
      decide (src.Name ∈
        if (stringsetInsertMany [] cfg.Sources).length > 0 && cfg.Include then
          stringsetIntersect
            (avail.foldl (fun set src => stringsetInsert set src.Name) [])
            (stringsetInsertMany [] cfg.Sources)
        else
          stringsetSubtract
            (avail.foldl (fun set src => stringsetInsert set src.Name) [])
            (stringsetInsertMany [] cfg.Sources))) =
      avail.filter fun src =>
        if cfg.Sources ≠ [] ∧ cfg.Include = true then decide (src.Name ∈ cfg.Sources)
        else decide (src.Name ∉ cfg.Sources) := by
    apply List.filter_congr
    intro src hsrc
    have hav : src.Name ∈ avail.foldl (fun set src => stringsetInsert set src.Name) [] :=
      (mem_available avail [] src.Name).2 (Or.inr ⟨src, hsrc, rfl⟩)
    by_cases hc : cfg.Sources ≠ [] ∧ cfg.Include = true
    · have hc2 : ((stringsetInsertMany [] cfg.Sources).length > 0 && cfg.Include) = true := by
        simp only [Bool.and_eq_true, decide_eq_true_eq, gt_iff_lt]
        exact ⟨(specified_length_pos _).2 hc.1, hc.2⟩
      rw [if_pos hc, if_pos hc2]
      simp [stringsetIntersect, List.mem_filter, hav, mem_stringsetInsertMany]
    · have hc2 : ¬ ((stringsetInsertMany [] cfg.Sources).length > 0 && cfg.Include) = true := by
        simp only [Bool.and_eq_true, decide_eq_true_eq, gt_iff_lt]
        rintro ⟨h1, h2⟩
        exact hc ⟨(specified_length_pos _).1 h1, h2⟩
      rw [if_neg hc, if_neg hc2]
      simp [stringsetSubtract, List.mem_filter, hav, mem_stringsetInsertMany]
  have hperm : (SelectedDataSources cfg avail).Perm
      (avail.filter fun src =>
        if cfg.Sources ≠ [] ∧ cfg.Include = true then decide (src.Name ∈ cfg.Sources)
        else decide (src.Name ∉ cfg.Sources)) := by
    unfold SelectedDataSources sortByName
    simp only
    rw [hfilter]
    exact List.perm_insertionSort _ _
  haveI : IsTotal Service (fun a b => a.Name ≤ b.Name) := ⟨fun a b => le_total a.Name b.Name⟩
  haveI : IsTrans Service (fun a b => a.Name ≤ b.Name) :=
    ⟨fun _ _ _ h1 h2 => le_trans h1 h2⟩
  refine ⟨hperm, ?_, ?_, ?_⟩
  · unfold SelectedDataSources sortByName
    exact List.sorted_insertionSort _ _
  · intro src hsrc
    exact (List.mem_filter.1 (hperm.subset hsrc)).1
  · intro hnil
    refine hperm.trans ?_
    rw [hnil]
    simp

/-! ## Passive-mode filter -/

theorem filterTestAndAdd_spec (filter : List String) (data : PipelineData)
    (name qtype : String) (hn : name ≠ "") :
    (filterTestAndAdd filter data name qtype).1 =
        (if name ++ qtype ∈ filter then (none, none) else (some data, none)) ∧
      ∀ k, k ∈ (filterTestAndAdd filter data name qtype).2 ↔ k ∈ filter ∨ name ++ qtype = k := by
  unfold filterTestAndAdd
  rw [if_neg hn]
  by_cases h : name ++ qtype ∈ filter
  · rw [if_pos h, if_pos h]
    refine ⟨rfl, fun k => ⟨Or.inl, ?_⟩⟩
    rintro (h1 | rfl)
    · exact h1
    · exact h
  · rw [if_neg h, if_neg h]
    refine ⟨rfl, fun k => ?_⟩
    simp [eq_comm]

theorem filterTestAndAdd_empty (filter : List String) (data : PipelineData) (qtype : String) :
    filterTestAndAdd filter data "" qtype = ((none, none), filter) := by
  unfold filterTestAndAdd
  rw [if_pos rfl]

theorem filterTaskFunc_spec (env : Env)
    (hvd : ∀ req, env.ValidDNS req = true → req.Name ≠ "")
    (hva : ∀ req, env.ValidAddr req = true → req.Address ≠ "")
    (filter : List String) (data : PipelineData) :
    (filterTaskFunc env false filter data).1 = filterExpectedIn env filter data ∧
      ∀ k, k ∈ (filterTaskFunc env false filter data).2 ↔
        k ∈ filter ∨ filterKey env data = some k := by
  unfold filterTaskFunc
  simp only [Bool.false_eq_true, if_false]
  cases data with
  | other payload => simp [filterExpectedIn, filterKey]
  | dns v =>
    cases v with
    | none => simp [filterTestAndAdd_empty, filterExpectedIn, filterKey]
    | some req =>
      by_cases hv : env.ValidDNS req = true
      · cases hr : req.Records with
        | nil =>
          have h := filterTestAndAdd_spec filter (.dns (some req)) req.Name "" (hvd req hv)
          simp only [String.append_empty] at h
          simp only [hv, if_true, hr, filterExpectedIn, filterKey, Option.some.injEq]
          simpa using h
        | cons rec rest =>
          have h := filterTestAndAdd_spec filter (.dns (some req)) req.Name (Itoa rec.RRType)
            (hvd req hv)
          simp only [hv, if_true, hr, filterExpectedIn, filterKey, Option.some.injEq]
          exact h
      · simp [hv, filterTestAndAdd_empty, filterExpectedIn, filterKey]
  | addr v =>
    cases v with
    | none => simp [filterTestAndAdd_empty, filterExpectedIn, filterKey]
    | some req =>
      by_cases hv : env.ValidAddr req = true
      · have h := filterTestAndAdd_spec filter (.addr (some req)) req.Address "" (hva req hv)
        simp only [String.append_empty] at h
        simp only [hv, if_true, filterExpectedIn, filterKey, Option.some.injEq]
        simpa using h
      · simp [hv, filterTestAndAdd_empty, filterExpectedIn, filterKey]

theorem filterTaskAll_filter (env : Env)
    (hvd : ∀ req, env.ValidDNS req = true → req.Name ≠ "")
    (hva : ∀ req, env.ValidAddr req = true → req.Address ≠ "")
    (items : List PipelineData) :
    ∀ (filter : List String) (k : String),
      k ∈ (filterTaskAll env false filter items).2 ↔
        k ∈ filter ∨ some k ∈ items.map (filterKey env) := by
  induction items with
  | nil => intro filter k; simp [filterTaskAll]
  | cons x xs ih =>
    intro filter k
    simp only [filterTaskAll, List.map_cons, List.mem_cons]
    rw [ih, (filterTaskFunc_spec env hvd hva filter x).2 k]
    constructor
    · rintro ((h | h) | h)
      · exact Or.inl h
      · exact Or.inr (Or.inl h.symm)
      · exact Or.inr (Or.inr h)
    · rintro (h | h | h)
      · exact Or.inl (Or.inl h)
      · exact Or.inl (Or.inr h.symm)
      · exact Or.inr h

theorem filterTaskAll_get (env : Env) (earlier : List PipelineData) :
    ∀ (filter : List String) (data : PipelineData) (later : List PipelineData),
      (filterTaskAll env false filter (earlier ++ data :: later)).1.get? earlier.length =
        some (filterTaskFunc env false (filterTaskAll env false filter earlier).2 data).1 := by
  induction earlier with
  | nil => intro filter data later; simp [filterTaskAll]
  | cons x xs ih =>
    intro filter data later
    simp only [List.cons_append, filterTaskAll, List.length_cons, List.get?_cons_succ]
    exact ih _ data later

theorem filterTaskFunc_error (env : Env) (ctxDone : Bool) (filter : List String)
    (data : PipelineData) : (filterTaskFunc env ctxDone filter data).1.2 = none := by
  unfold filterTaskFunc filterTestAndAdd
  repeat' split
  all_goals rfl

theorem filterTaskAll_error (env : Env) (ctxDone : Bool) (items : List PipelineData) :
    ∀ filter : List String, ∀ out ∈ (filterTaskAll env ctxDone filter items).1, out.2 = none := by
  induction items with
  | nil => intro filter out h; simp [filterTaskAll] at h
  | cons x xs ih =>
    intro filter out h
    simp only [filterTaskAll, List.mem_cons] at h
    rcases h with rfl | h
    · exact filterTaskFunc_error env ctxDone filter x
    · exact ih _ out h

/-- C12: with valid requests having a name or address, an empty filter at the
start and a context that is not cancelled, the task returns for each item of a
sequence: the item itself when it is of another kind; nothing when it is a nil
or invalid request; for a valid request the item itself when no earlier item
has its key and nothing otherwise. The returned error is nil for every item. -/
theorem filterTaskFunc_drops_repeats (env : Env)
    (hvd : ∀ req, env.ValidDNS req = true → req.Name ≠ "")
    (hva : ∀ req, env.ValidAddr req = true → req.Address ≠ "")
    (earlier : List PipelineData) (data : PipelineData) (later : List PipelineData) :
    (filterTaskAll env false [] (earlier ++ data :: later)).1.get? earlier.length =
        some (filterExpected env earlier data) ∧
      (filterTaskAll env false [] (earlier ++ data :: later)).1.length =
        (earlier ++ data :: later).length ∧
      ∀ out ∈ (filterTaskAll env false [] (earlier ++ data :: later)).1, out.2 = none := by
  refine ⟨?_, ?_, filterTaskAll_error env false _ []⟩
  · rw [filterTaskAll_get, (filterTaskFunc_spec env hvd hva _ data).1]
    congr 1
    unfold filterExpectedIn filterExpected
    cases data with
    | other payload => rfl
    | dns v =>
      simp only
      cases hk : filterKey env (.dns v) with
      | none => rfl
      | some key =>
        simp only
        have := filterTaskAll_filter env hvd hva earlier [] key
        simp only [List.not_mem_nil, false_or] at this
        by_cases hm : some key ∈ earlier.map (filterKey env)
        · rw [if_pos hm, if_pos (this.2 hm)]
        · rw [if_neg hm, if_neg (fun h => hm (this.1 h))]
    | addr v =>
      simp only
      cases hk : filterKey env (.addr v) with
      | none => rfl
      | some key =>
        simp only
        have := filterTaskAll_filter env hvd hva earlier [] key
        simp only [List.not_mem_nil, false_or] at this
        by_cases hm : some key ∈ earlier.map (filterKey env)
        · rw [if_pos hm, if_pos (this.2 hm)]
        · rw [if_neg hm, if_neg (fun h => hm (this.1 h))]
  · generalize earlier ++ data :: later = items
    generalize ([] : List String) = filter
    induction items generalizing filter with
    | nil => rfl
    | cons x xs ih => simp [filterTaskAll, ih]

theorem filterTaskFunc_drops_repeats_witness :
    (∀ req, stubEnv.ValidDNS req = true → req.Name ≠ "") ∧
    (∀ req, stubEnv.ValidAddr req = true → req.Address ≠ "") ∧
    (filterTaskAll stubEnv false [] passiveItems).1.get? 4 = some (none, none) ∧
    (filterTaskAll stubEnv false [] passiveItems).1.get? 4 =
      some (filterExpected stubEnv (passiveItems.take 4)
        (.dns (some { Name := "a.example.com", Domain := "example.com",
                      Records := [{ Name := "a.example.com", RRType := 1, TTL := 300,
                                    Data := "192.0.2.1" }],
                      Tag := "api", Source := "fofa" }))) :=
  ⟨fun req h => by simpa [stubEnv] using h, fun req h => by simpa [stubEnv] using h,
    by decide,
    (filterTaskFunc_drops_repeats stubEnv (fun req h => by simpa [stubEnv] using h)
      (fun req h => by simpa [stubEnv] using h) (passiveItems.take 4)
      (.dns (some { Name := "a.example.com", Domain := "example.com",
                    Records := [{ Name := "a.example.com", RRType := 1, TTL := 300,
                                  Data := "192.0.2.1" }],
                    Tag := "api", Source := "fofa" })) []).1⟩

/-! ## Duplicate tracker: the removal pass -/

theorem get?_mid (done : List altsource) (a : altsource) (tl : List altsource) :
    (done ++ a :: tl).get? done.length = some a := by
  induction done with
  | nil => rfl
  | cons d ds ih => simpa using ih

theorem set_mid (done : List altsource) (a b : altsource) (tl : List altsource) :
    (done ++ a :: tl).set done.length b = done ++ b :: tl := by
  simp

theorem getD_mid (done : List altsource) (a d : altsource) (tl : List altsource) :
    (done ++ a :: tl).getD done.length d = a := by
  induction done with
  | nil => rfl
  | cons x xs ih => simpa using ih

theorem dupLoop_break (num len rounds i : Nat) (st : DupPass)
    (h : (len : Int) - (st.removed : Int) ≤ (i : Int)) :
    dupLoop num len (rounds + 1) i st = st := by
  rw [dupLoop, if_pos (ge_iff_le.2 h)]

theorem dupLoop_keep (num len rounds i : Nat) (st : DupPass) (a : altsource)
    (h : (i : Int) < (len : Int) - (st.removed : Int))
    (ha : st.pending.get? i = some a) (hc : 0 < (tick num a).Countdown) :
    dupLoop num len (rounds + 1) i st =
      dupLoop num len rounds (i + 1) { st with pending := st.pending.set i (tick num a) } := by
  rw [dupLoop, if_neg (by omega)]
  simp only [ha]
  have hc2 : ¬ (tick num a).Countdown ≤ 0 := by omega
  unfold tick at hc2 ⊢
  rw [if_neg hc2]

theorem dupLoop_fire (num len rounds i : Nat) (st : DupPass) (a : altsource)
    (h : (i : Int) < (len : Int) - (st.removed : Int))
    (ha : st.pending.get? i = some a) (hc : (tick num a).Countdown ≤ 0) :
    dupLoop num len (rounds + 1) i st =
      dupLoop num len rounds (i + 1)
        { pending :=
            (st.pending.set i (tick num a)).set i
              ((st.pending.set i (tick num a)).getD (len - (st.removed + 1)) (tick num a))
          removed := st.removed + 1
          fired := st.fired ++ [tick num a] } := by
  rw [dupLoop, if_neg (by omega)]
  simp only [ha]
  unfold tick at hc ⊢
  rw [if_pos hc]

/-- The state of the removal loop at index `i`: `done` are the live entries
before `i`, `todo` the live entries not yet visited, `junk` the slots cut off
at the end. The loop ends with the live entries `done ++ kept` and has fired
`gone`, which together are the entries of `todo`, each once. -/
theorem dupLoop_spec (num : Nat) (rounds : Nat) :
    ∀ (i : Nat) (done todo junk fired : List altsource),
      done.length ≤ i → (todo ≠ [] → done.length = i) → todo.length ≤ rounds →
      ∃ kept gone junk2 : List altsource,
        dupLoop num (done ++ todo ++ junk).length rounds i
            { pending := done ++ todo ++ junk, removed := junk.length, fired := fired } =
          { pending := done ++ kept ++ junk2, removed := junk2.length, fired := fired ++ gone } ∧
        (done ++ kept ++ junk2).length = (done ++ todo ++ junk).length ∧
        (∃ l, List.Forall₂ (SameEntry num) todo l ∧ l.Perm (kept ++ gone)) ∧
        (∀ x ∈ gone, x.Countdown ≤ 0 ∧ ∃ a ∈ todo, x = tick num a) ∧
        (∀ x ∈ kept, 0 < x.Countdown ∨ x ∈ todo) := by
  induction rounds with
  | zero =>
    intro i done todo junk fired _ _ hr
    have ht : todo = [] := List.length_eq_zero.1 (Nat.le_zero.1 hr)
    subst ht
    exact ⟨[], [], junk, by simp [dupLoop], rfl, ⟨[], List.Forall₂.nil, List.Perm.nil⟩,
      by simp, by simp⟩
  | succ rounds ih =>
    intro i done todo junk fired hd hi hr
    cases todo with
    | nil =>
      refine ⟨[], [], junk, ?_, rfl, ⟨[], List.Forall₂.nil, List.Perm.nil⟩, by simp, by simp⟩
      rw [dupLoop_break]
      · simp
      · simp only [List.append_nil, List.length_append]
        push_cast
        omega
    | cons a rest =>
      have hdi : done.length = i := hi (by simp)
      subst hdi
      have hlt : ((done.length : Nat) : Int) <
          (((done ++ a :: rest ++ junk).length : Nat) : Int) - ((junk.length : Nat) : Int) := by
        simp only [List.length_append, List.length_cons]
        push_cast
        omega
      have hget : (done ++ a :: rest ++ junk).get? done.length = some a := by
        rw [List.append_assoc]
        exact get?_mid done a (rest ++ junk)
      have hset : (done ++ a :: rest ++ junk).set done.length (tick num a) =
          done ++ tick num a :: rest ++ junk := by
        rw [List.append_assoc, List.append_assoc]
        exact set_mid done a (tick num a) (rest ++ junk)
      by_cases hc : (tick num a).Countdown ≤ 0
      · -- the entry is fired and its slot refilled from the end of the live part
        rcases List.eq_nil_or_concat rest with hrest | ⟨rest2, z, hrest⟩
        · subst hrest
          obtain ⟨kept, gone, junk2, h1, h2, ⟨l, hl1, hl2⟩, h4, h5⟩ :=
            ih (done.length + 1) done [] (tick num a :: junk) (fired ++ [tick num a])
              (Nat.le_succ _) (fun h => absurd rfl h) (Nat.zero_le _)
          refine ⟨kept, tick num a :: gone, junk2, ?_, ?_, ?_, ?_, ?_⟩
          · rw [dupLoop_fire num _ rounds done.length _ a hlt hget hc]
            simp only [hset]
            have hidx : (done ++ [a] ++ junk).length - (junk.length + 1) = done.length := by
              simp only [List.length_append, List.length_cons, List.length_nil]
              omega
            rw [hidx]
            have hgd : (done ++ [tick num a] ++ junk).getD done.length (tick num a) =
                tick num a := by
              rw [List.append_assoc]
              exact getD_mid done (tick num a) (tick num a) ([] ++ junk)
            rw [hgd]
            have hs2 : (done ++ [tick num a] ++ junk).set done.length (tick num a) =
                done ++ [] ++ tick num a :: junk := by
              rw [List.append_assoc]
              simp
            rw [hs2]
            have hlen : (done ++ [a] ++ junk).length =
                (done ++ [] ++ tick num a :: junk).length := by simp
            rw [hlen]
            simp only [List.length_cons] at h1
            rw [h1]
            simp
          · rw [h2]; simp
          · cases hl1
            have hk : kept ++ gone = [] := List.Perm.nil_eq hl2 ▸ rfl
            have hk1 : kept = [] := (List.append_eq_nil.1 hk).1
            have hg1 : gone = [] := (List.append_eq_nil.1 hk).2
            subst hk1 hg1
            exact ⟨[tick num a], List.Forall₂.cons (Or.inr rfl) List.Forall₂.nil,
              List.Perm.refl _⟩
          · intro x hx
            rcases List.mem_cons.1 hx with rfl | hx
            · exact ⟨hc, a, by simp, rfl⟩
            · obtain ⟨-, b, hb, -⟩ := h4 x hx
              simp at hb
          · intro x hx
            rcases h5 x hx with h | h
            · exact Or.inl h
            · simp at h
        · rw [List.concat_eq_append] at hrest
          subst hrest
          obtain ⟨kept, gone, junk2, h1, h2, ⟨l, hl1, hl2⟩, h4, h5⟩ :=
            ih (done.length + 1) (done ++ [z]) rest2 (z :: junk) (fired ++ [tick num a])
              (by simp) (fun _ => by simp)
              (by simp only [List.length_cons, List.length_append, List.length_nil] at hr; omega)
          refine ⟨z :: kept, tick num a :: gone, junk2, ?_, ?_, ?_, ?_, ?_⟩
          · rw [dupLoop_fire num _ rounds done.length _ a hlt hget hc]
            simp only [hset]
            have hidx : (done ++ a :: (rest2 ++ [z]) ++ junk).length - (junk.length + 1) =
                (done ++ tick num a :: rest2).length := by
              simp only [List.length_append, List.length_cons, List.length_nil]
              omega
            rw [hidx]
            have hgd : (done ++ tick num a :: (rest2 ++ [z]) ++ junk).getD
                (done ++ tick num a :: rest2).length (tick num a) = z := by
              have : done ++ tick num a :: (rest2 ++ [z]) ++ junk =
                  (done ++ tick num a :: rest2) ++ z :: junk := by simp
              rw [this]
              exact getD_mid _ z _ junk
            rw [hgd]
            have hs2 : (done ++ tick num a :: (rest2 ++ [z]) ++ junk).set done.length z =
                done ++ [z] ++ rest2 ++ z :: junk := by
              have : done ++ tick num a :: (rest2 ++ [z]) ++ junk =
                  done ++ tick num a :: (rest2 ++ [z] ++ junk) := by simp
              rw [this, set_mid]
              simp
            rw [hs2]
            have hlen : (done ++ a :: (rest2 ++ [z]) ++ junk).length =
                (done ++ [z] ++ rest2 ++ z :: junk).length := by
              simp only [List.length_append, List.length_cons, List.length_nil]
              omega
            rw [hlen]
            simp only [List.length_cons] at h1
            rw [h1]
            simp
          · rw [show done ++ z :: kept ++ junk2 = done ++ [z] ++ kept ++ junk2 by simp, h2]
            simp only [List.length_append, List.length_cons, List.length_nil]
            omega
          · refine ⟨tick num a :: (l ++ [z]), ?_, ?_⟩
            · refine List.Forall₂.cons (Or.inr rfl) ?_
              exact List.rel_append hl1 (List.Forall₂.cons (Or.inl rfl) List.Forall₂.nil)
            · have p1 : (l ++ [z]).Perm (z :: (kept ++ gone)) :=
                (List.perm_append_comm).trans (List.Perm.cons z hl2)
              have p2 : (tick num a :: (l ++ [z])).Perm (tick num a :: z :: (kept ++ gone)) :=
                List.Perm.cons _ p1
              refine p2.trans ?_
              have p3 : (z :: kept ++ tick num a :: gone).Perm
                  (tick num a :: (z :: kept ++ gone)) := List.perm_middle
              exact p3.symm
          · intro x hx
            rcases List.mem_cons.1 hx with rfl | hx
            · exact ⟨hc, a, by simp, rfl⟩
            · obtain ⟨hx1, b, hb, hx2⟩ := h4 x hx
              exact ⟨hx1, b, by simp [hb], hx2⟩
          · intro x hx
            rcases List.mem_cons.1 hx with rfl | hx
            · exact Or.inr (by simp)
            · rcases h5 x hx with h | h
              · exact Or.inl h
              · exact Or.inr (by simp [h])
      · -- the entry stays
        have hpos : 0 < (tick num a).Countdown := by omega
        obtain ⟨kept, gone, junk2, h1, h2, ⟨l, hl1, hl2⟩, h4, h5⟩ :=
          ih (done.length + 1) (done ++ [tick num a]) rest junk fired
            (by simp) (fun _ => by simp)
            (by simp only [List.length_cons] at hr; omega)
        refine ⟨tick num a :: kept, gone, junk2, ?_, ?_, ?_, ?_, ?_⟩
        · rw [dupLoop_keep num _ rounds done.length _ a hlt hget hpos]
          simp only [hset]
          have hlen : (done ++ a :: rest ++ junk).length =
              (done ++ [tick num a] ++ rest ++ junk).length := by simp
          rw [hlen]
          rw [show done ++ tick num a :: rest ++ junk = done ++ [tick num a] ++ rest ++ junk
            by simp, h1]
          simp
        · rw [show done ++ tick num a :: kept ++ junk2 = done ++ [tick num a] ++ kept ++ junk2
            by simp, h2]
          simp
        · exact ⟨tick num a :: l, List.Forall₂.cons (Or.inr rfl) hl1, List.Perm.cons _ hl2⟩
        · intro x hx
          obtain ⟨hx1, b, hb, hx2⟩ := h4 x hx
          exact ⟨hx1, b, List.mem_cons_of_mem _ hb, hx2⟩
        · intro x hx
          rcases List.mem_cons.1 hx with rfl | hx
          · exact Or.inl hpos
          · rcases h5 x hx with h | h
            · exact Or.inl h
            · exact Or.inr (List.mem_cons_of_mem _ h)

theorem processInputSig_eq (num : Nat) (pending : List altsource) :
    ∃ kept gone : List altsource,
      processInputSig num pending = (kept, gone) ∧
      (∃ l, List.Forall₂ (SameEntry num) pending l ∧ l.Perm (kept ++ gone)) ∧
      (∀ x ∈ gone, x.Countdown ≤ 0 ∧ ∃ a ∈ pending, x = tick num a) ∧
      (∀ x ∈ kept, 0 < x.Countdown ∨ x ∈ pending) := by
  obtain ⟨kept, gone, junk2, h1, h2, h3, h4, h5⟩ :=
    dupLoop_spec num pending.length 0 [] pending [] [] (Nat.le_refl _) (fun _ => rfl)
      (Nat.le_refl _)
  simp only [List.nil_append, List.append_nil, List.length_nil] at h1 h2
  refine ⟨kept, gone, ?_, h3, h4, h5⟩
  unfold processInputSig
  simp only [h1]
  congr 1
  by_cases hj : junk2.length > 0
  · rw [if_pos hj]
    have : pending.length - junk2.length = kept.length := by
      rw [← h2, List.length_append]
      omega
    rw [this, List.take_left']
    rfl
  · rw [if_neg hj]
    have : junk2 = [] := List.length_eq_zero.1 (by omega)
    rw [this, List.append_nil]

theorem tick_fields (num : Nat) (a : altsource) :
    (tick num a).Name = a.Name ∧ (tick num a).Source = a.Source ∧
      (tick num a).Tag = a.Tag ∧ (tick num a).Min = a.Min ∧
      a.Countdown - 1 ≤ (tick num a).Countdown := by
  unfold tick
  split_ifs
  · exact ⟨rfl, rfl, rfl, rfl, le_refl _⟩
  · exact ⟨rfl, rfl, rfl, rfl, by omega⟩

theorem sameEntry_fields (num : Nat) :
    ∀ pending l : List altsource, List.Forall₂ (SameEntry num) pending l →
      l.map (fun a => (a.Name, a.Source, a.Tag, a.Min)) =
        pending.map (fun a => (a.Name, a.Source, a.Tag, a.Min)) := by
  intro pending l h
  induction h with
  | nil => rfl
  | cons hab _ ih =>
    simp only [List.map_cons, ih]
    congr 1
    rcases hab with rfl | rfl
    · rfl
    · obtain ⟨h1, h2, h3, h4, -⟩ := tick_fields num _
      rw [h1, h2, h3, h4]

/-- C13: when every pending entry has `Countdown ≥ 1`, the entries left in
`pending` after the removal pass together with the entries fired in it are the
original entries, each exactly once and each either untouched or decremented
once; so none is dropped unfired, fired twice or kept twice. The entries left
again have `Countdown ≥ 1`, and the fired ones have reached 0. -/
theorem processInputSig_keeps_entries (num : Nat) (pending : List altsource)
    (h : ∀ a ∈ pending, 1 ≤ a.Countdown) :
    (∃ l, List.Forall₂ (SameEntry num) pending l ∧
      l.Perm ((processInputSig num pending).1 ++ (processInputSig num pending).2)) ∧
    (((processInputSig num pending).1 ++ (processInputSig num pending).2).map
        fun a => (a.Name, a.Source, a.Tag, a.Min)).Perm
      (pending.map fun a => (a.Name, a.Source, a.Tag, a.Min)) ∧
    (∀ a ∈ (processInputSig num pending).1, 1 ≤ a.Countdown) ∧
    (∀ a ∈ (processInputSig num pending).2, a.Countdown = 0) := by
  obtain ⟨kept, gone, heq, ⟨l, hl1, hl2⟩, h4, h5⟩ := processInputSig_eq num pending
  rw [heq]
  refine ⟨⟨l, hl1, hl2⟩, ?_, ?_, ?_⟩
  · rw [← sameEntry_fields num pending l hl1]
    exact (hl2.map _).symm
  · intro a ha
    rcases h5 a ha with h0 | hm
    · omega
    · exact h a hm
  · intro x hx
    obtain ⟨h0, a, ha, rfl⟩ := h4 x hx
    have := (tick_fields num a).2.2.2.2
    have := h a ha
    omega

theorem processInputSig_keeps_entries_witness :
    (∀ a ∈ pendingPair, 1 ≤ a.Countdown) ∧
    (((processInputSig 2010 pendingPair).1 ++ (processInputSig 2010 pendingPair).2).map
        fun a => (a.Name, a.Source, a.Tag, a.Min)).Perm
      (pendingPair.map fun a => (a.Name, a.Source, a.Tag, a.Min)) :=
  ⟨by decide, (processInputSig_keeps_entries 2010 pendingPair (by decide)).2.1⟩

/-! ## Sweep generation pass -/

theorem requestSweeps_idle (active : Bool) (subset : Nat → Nat → List String)
    (ctxDone : Nat → Nat → Bool) (r : enumSource) (hs : r.sweeps = [])
    (hq : r.queue.length < r.max) :
    ∀ rounds round : Nat, requestSweeps active subset ctxDone rounds round r = none := by
  intro rounds
  induction rounds with
  | zero => intro round; rfl
  | succ rounds ih =>
    intro round
    rw [requestSweeps, if_neg (by omega)]
    simp only [hs]
    exact ih (round + 1)

theorem requestSweeps_returns (active : Bool) (subset : Nat → Nat → List String)
    (ctxDone : Nat → Nat → Bool) (rounds : Nat) :
    ∀ (round : Nat) (r out : enumSource),
      requestSweeps active subset ctxDone rounds round r = some out →
        out.max ≤ out.queue.length := by
  induction rounds with
  | zero => intro round r out h; simp [requestSweeps] at h
  | succ rounds ih =>
    intro round r out h
    rw [requestSweeps] at h
    by_cases hq : (r.max : Int) - (r.queue.length : Int) ≤ 0
    · rw [if_pos hq] at h
      simp only [Option.some.injEq] at h
      subst h
      omega
    · rw [if_neg hq] at h
      cases hs : r.sweeps with
      | nil =>
        simp only [hs] at h
        exact ih _ _ _ h
      | cons e rest =>
        simp only [hs] at h
        exact ih _ _ _ h

/-- C14: started on the input source as `newEnumSource` builds it, with an
empty `queue`, no address in `sweeps` and `max = 1000`, the loop of
`requestSweeps` has not returned after any number of rounds: each round finds
`queue.Len() < max`, gets nothing from `sweeps` and changes nothing. -/
theorem requestSweeps_never_returns (active : Bool) (subset : Nat → Nat → List String)
    (ctxDone : Nat → Nat → Bool) (rounds round : Nat) :
    (newEnumSource 0).sweeps = [] ∧ (newEnumSource 0).queue.length < (newEnumSource 0).max ∧
      requestSweeps active subset ctxDone rounds round (newEnumSource 0) = none :=
  ⟨rfl, by decide,
    requestSweeps_idle active subset ctxDone (newEnumSource 0) rfl (by decide) rounds round⟩

end Amass
